import Mathlib

/-!
Verification of the Harbormaster orchestrator (docker_harbormaster/cli.py)
against its natural-language specification.

The Python source is shallowly embedded: pure functions become Lean
functions, external processes (git, docker, the filesystem) are modelled
as oracles whose answers are inputs, and the per-run control flow becomes
functions producing an explicit trace of the external operations issued.
Machine-level details (SHA-1 over bytes) are implemented directly over Nat
with explicit reduction modulo 2^32.
-/

namespace Harbormaster

/-! ## Association-list model of Python dicts

Python dict assignment `d[k] = v` preserves insertion order and replaces
an existing binding; `d.get(k, dflt)` looks a key up with a default.
-/

/-- Python dict assignment on an insertion-ordered association list. -/
def dictInsert {α : Type} : List (String × α) → String → α → List (String × α)
  | [], k, v => [(k, v)]
  | (k1, v1) :: t, k, v =>
    if k1 = k then (k, v) :: t else (k1, v1) :: dictInsert t k v

/-- Python `d.get(k, dflt)`. -/
def lookupD {α : Type} : List (String × α) → String → α → α
  | [], _, dflt => dflt
  | (k1, v1) :: t, k, dflt => if k1 = k then v1 else lookupD t k dflt

/-- Python `d.get(k)` / `k in d` style lookup. -/
def lookupA {α : Type} : List (String × α) → String → Option α
  | [], _ => none
  | (k1, v1) :: t, k => if k1 = k then some v1 else lookupA t k

/-! ## SHA-1 (`hashlib.sha1(...).hexdigest()`)

Implemented over `Nat` bytes/words with explicit `% 2^32`.
-/

def w32 : Nat := 4294967296

def add32 (a b : Nat) : Nat := (a + b) % w32

def rotl32 (n x : Nat) : Nat := ((x <<< n) % w32) ||| (x >>> (32 - n))

def sha1F (t b c d : Nat) : Nat :=
  if t < 20 then (b &&& c) ||| (((w32 - 1) ^^^ b) &&& d)
  else if t < 40 then b ^^^ c ^^^ d
  else if t < 60 then (b &&& c) ||| (b &&& d) ||| (c &&& d)
  else b ^^^ c ^^^ d

def sha1K (t : Nat) : Nat :=
  if t < 20 then 1518500249
  else if t < 40 then 1859775393
  else if t < 60 then 2400959708
  else 3395469782

def wordBE (b0 b1 b2 b3 : Nat) : Nat := ((b0 * 256 + b1) * 256 + b2) * 256 + b3

/-- The 80-word message schedule of one 64-byte block. -/
def sha1Schedule (block : List Nat) : List Nat :=
  let w16 := (List.range 16).map fun i =>
    wordBE (block.getD (4 * i) 0) (block.getD (4 * i + 1) 0)
      (block.getD (4 * i + 2) 0) (block.getD (4 * i + 3) 0)
  (List.range 64).foldl
    (fun w _ =>
      let l := w.length
      w ++ [rotl32 1 (w.getD (l - 3) 0 ^^^ w.getD (l - 8) 0 ^^^ w.getD (l - 14) 0 ^^^ w.getD (l - 16) 0)])
    w16

/-- One SHA-1 compression step over a 64-byte block. -/
def sha1Compress (h : Nat × Nat × Nat × Nat × Nat) (block : List Nat) :
    Nat × Nat × Nat × Nat × Nat :=
  let ws := sha1Schedule block
  let st := (List.range 80).foldl
    (fun (st : Nat × Nat × Nat × Nat × Nat) t =>
      let tmp := (rotl32 5 st.1 + sha1F t st.2.1 st.2.2.1 st.2.2.2.1 + st.2.2.2.2
        + sha1K t + ws.getD t 0) % w32
      (tmp, st.1, rotl32 30 st.2.1, st.2.2.1, st.2.2.2.1)) h
  (add32 h.1 st.1, add32 h.2.1 st.2.1, add32 h.2.2.1 st.2.2.1,
    add32 h.2.2.2.1 st.2.2.2.1, add32 h.2.2.2.2 st.2.2.2.2)

/-- SHA-1 padding: append 0x80, zeros to 56 mod 64, then the 64-bit big-endian bit length. -/
def sha1PadMsg (m : List Nat) : List Nat :=
  let l := m.length
  let bits := 8 * l
  m ++ [128] ++ List.replicate ((119 - l % 64) % 64) 0
    ++ [bits / 2 ^ 56 % 256, bits / 2 ^ 48 % 256, bits / 2 ^ 40 % 256, bits / 2 ^ 32 % 256,
        bits / 2 ^ 24 % 256, bits / 2 ^ 16 % 256, bits / 2 ^ 8 % 256, bits % 256]

/-- Fold the compression function over consecutive 64-byte blocks (fuel-structural). -/
def sha1Go : Nat → (Nat × Nat × Nat × Nat × Nat) → List Nat → Nat × Nat × Nat × Nat × Nat
  | 0, h, _ => h
  | fuel + 1, h, m =>
    if m.isEmpty then h else sha1Go fuel (sha1Compress h (m.take 64)) (m.drop 64)

def sha1Digest (m : List Nat) : Nat × Nat × Nat × Nat × Nat :=
  let p := sha1PadMsg m
  sha1Go p.length (1732584193, 4023233417, 2562383102, 271733878, 3285377520) p

def hexDigit (n : Nat) : Char := if n < 10 then Char.ofNat (48 + n) else Char.ofNat (87 + n)

/-- Eight lowercase hex digits of a 32-bit word, most significant first. -/
def hex8 (x : Nat) : List Char :=
  [hexDigit (x / 16 ^ 7 % 16), hexDigit (x / 16 ^ 6 % 16), hexDigit (x / 16 ^ 5 % 16),
   hexDigit (x / 16 ^ 4 % 16), hexDigit (x / 16 ^ 3 % 16), hexDigit (x / 16 ^ 2 % 16),
   hexDigit (x / 16 % 16), hexDigit (x % 16)]

/-- `hashlib.sha1(m).hexdigest()` over a byte list. -/
def sha1Hex (m : List Nat) : String :=
  String.mk (hex8 (sha1Digest m).1 ++ hex8 (sha1Digest m).2.1 ++ hex8 (sha1Digest m).2.2.1
    ++ hex8 (sha1Digest m).2.2.2.1 ++ hex8 (sha1Digest m).2.2.2.2)

set_option maxRecDepth 40000 in
example : sha1Hex [97, 98, 99] = "a9993e364706816aba3e25717850c26c9cd0d89d" := by decide

/-! ## `_hash_dict` (cli.py lines 48-50)

`hashlib.sha1(str(sorted(d.items())).encode()).hexdigest()`: the dict's
items are sorted (Python tuple order: by key, then value), rendered with
Python repr, UTF-8 encoded and SHA-1 hashed.  The repr model covers
printable characters plus the escapes for backslash, quotes, newline,
carriage return and tab (the inputs occurring here are such strings).
-/

/-- Code-point lexicographic order on char lists (Python string `<`). -/
def charListLt : List Char → List Char → Bool
  | [], [] => false
  | [], _ :: _ => true
  | _ :: _, [] => false
  | a :: as, b :: bs =>
    Nat.blt a.toNat b.toNat || (a.toNat == b.toNat && charListLt as bs)

def strLtB (a b : String) : Bool := charListLt a.data b.data

/-- Python tuple comparison on string pairs. -/
def pairLtB (p q : String × String) : Bool :=
  strLtB p.1 q.1 || (p.1 == q.1 && strLtB p.2 q.2)

def insertPair (x : String × String) : List (String × String) → List (String × String)
  | [] => [x]
  | y :: t => if pairLtB x y then x :: y :: t else y :: insertPair x t

/-- Python `sorted` on dict items (stable; strict-lt insertion sort). -/
def pySorted (l : List (String × String)) : List (String × String) :=
  l.foldl (fun acc x => insertPair x acc) []

def pyReprChar (q c : Char) : List Char :=
  if c = '\\' then ['\\', '\\']
  else if c = q then ['\\', q]
  else if c = '\n' then ['\\', 'n']
  else if c = '\r' then ['\\', 'r']
  else if c = '\t' then ['\\', 't']
  else [c]

/-- Python `repr` of a string: single quotes, or double quotes when the
string contains a single quote but no double quote. -/
def pyReprStr (s : String) : List Char :=
  let q := if s.data.contains '\'' && !(s.data.contains '"') then '"' else '\''
  q :: (s.data.map (pyReprChar q)).flatten ++ [q]

def pyReprPair (p : String × String) : List Char :=
  '(' :: pyReprStr p.1 ++ [',', ' '] ++ pyReprStr p.2 ++ [')']

def pyReprList (l : List (String × String)) : List Char :=
  '[' :: List.intercalate [',', ' '] (l.map pyReprPair) ++ [']']

def utf8Char (c : Char) : List Nat :=
  let n := c.toNat
  if n < 128 then [n]
  else if n < 2048 then [192 + n / 64, 128 + n % 64]
  else if n < 65536 then [224 + n / 4096, 128 + n / 64 % 64, 128 + n % 64]
  else [240 + n / 262144, 128 + n / 4096 % 64, 128 + n / 64 % 64, 128 + n % 64]

def utf8Encode (s : List Char) : List Nat := (s.map utf8Char).flatten

/-- `_hash_dict` (cli.py lines 48-50). -/
def hashDict (d : List (String × String)) : String :=
  sha1Hex (utf8Encode (pyReprList (pySorted d)))

set_option maxRecDepth 40000 in
example : hashDict [] = "97d170e1550eee4afc0af065b78cda302a97674c" := by decide

set_option maxRecDepth 100000 in
example : hashDict [("a", "b"), ("A", "c")] = "e9379f42b13f6522827900be5352e05c282c6e21" := by
  decide

/-! ## `App.check_parameter_changes` (cli.py lines 281-316)

The app's environment and replacements dicts and its configuration hash
(computed in `App.__init__` from `yaml.dump(configuration)`, here an input
string since YAML serialisation is external) are hashed and compared with
the cached values; the cache entry is updated with the fresh hashes and
the comparison result returned.
-/

/-- The per-app inputs of the change detector: `self.environment`,
`self.replacements` and `self.configuration_hash`. -/
structure AppParams where
  environment : List (String × String)
  replacements : List (String × String)
  configurationHash : String
  deriving DecidableEq

/-- `App.check_parameter_changes` (cli.py lines 281-316): returns the
changed flag and the mutated `self.cache`. -/
def checkParameterChanges (a : AppParams) (cache : List (String × String)) :
    Bool × List (String × String) :=
  let envHash := hashDict a.environment
  let replacementsHash := hashDict a.replacements
  let configurationHash := a.configurationHash
  let oldEnvHash := lookupD cache "environment_hash" ""
  let oldReplacementsHash := lookupD cache "replacements_hash" ""
  let oldConfigurationHash := lookupD cache "configuration_hash" ""
  let cache1 := dictInsert cache "environment_hash" envHash
  let cache2 := dictInsert cache1 "replacements_hash" replacementsHash
  let cache3 := dictInsert cache2 "configuration_hash" configurationHash
  (envHash != oldEnvHash || replacementsHash != oldReplacementsHash
      || configurationHash != oldConfigurationHash,
    cache3)

theorem sha1Hex_length (m : List Nat) : (sha1Hex m).length = 40 := by
  simp [sha1Hex, hex8, String.length]

theorem sha1Hex_ne_empty (m : List Nat) : sha1Hex m ≠ "" := by
  intro h
  have h2 := congrArg String.length h
  rw [sha1Hex_length] at h2
  simp [String.length] at h2

theorem hashDict_ne_empty (d : List (String × String)) : hashDict d ≠ "" :=
  sha1Hex_ne_empty _

theorem lookupD_dictInsert_self {α : Type} (d : List (String × α)) (k : String)
    (v dflt : α) : lookupD (dictInsert d k v) k dflt = v := by
  induction d with
  | nil => simp [dictInsert, lookupD]
  | cons p t ih =>
    obtain ⟨k1, v1⟩ := p
    by_cases hk : k1 = k <;> simp [dictInsert, lookupD, hk, ih]

theorem lookupD_dictInsert_ne {α : Type} (d : List (String × α)) (k k2 : String)
    (v dflt : α) (h : k ≠ k2) :
    lookupD (dictInsert d k v) k2 dflt = lookupD d k2 dflt := by
  induction d with
  | nil => simp [dictInsert, lookupD, h]
  | cons p t ih =>
    obtain ⟨k1, v1⟩ := p
    by_cases hk : k1 = k
    · subst hk
      simp [dictInsert, lookupD, h]
    · simp [dictInsert, lookupD, hk, ih]

/-- C3: `check_parameter_changes` returns true iff at least one of the three
freshly computed hashes (environment, replacements, configuration stanza)
differs from the corresponding cached value, a missing cached value being
the empty string; an empty cache entry always yields true since the fresh
environment hash is a 40-character hex digest, hence non-empty; and the
returned cache entry holds the three fresh hashes regardless of the
outcome. -/
theorem checkParameterChanges_spec (a : AppParams) (cache : List (String × String)) :
    ((checkParameterChanges a cache).1 = true ↔
      (hashDict a.environment ≠ lookupD cache "environment_hash" "" ∨
        hashDict a.replacements ≠ lookupD cache "replacements_hash" "" ∨
        a.configurationHash ≠ lookupD cache "configuration_hash" "")) ∧
    lookupD (checkParameterChanges a cache).2 "environment_hash" "" = hashDict a.environment ∧
    lookupD (checkParameterChanges a cache).2 "replacements_hash" "" = hashDict a.replacements ∧
    lookupD (checkParameterChanges a cache).2 "configuration_hash" "" = a.configurationHash ∧
    (hashDict a.environment).length = 40 ∧
    (cache = [] → (checkParameterChanges a cache).1 = true) := by
  refine ⟨?_, ?_, ?_, ?_, sha1Hex_length _, ?_⟩
  · simp [checkParameterChanges, Bool.or_eq_true, bne_iff_ne, or_assoc]
  · rw [show (checkParameterChanges a cache).2
        = dictInsert (dictInsert (dictInsert cache "environment_hash" (hashDict a.environment))
            "replacements_hash" (hashDict a.replacements))
            "configuration_hash" a.configurationHash from rfl]
    rw [lookupD_dictInsert_ne _ _ _ _ _ (by decide),
      lookupD_dictInsert_ne _ _ _ _ _ (by decide), lookupD_dictInsert_self]
  · rw [show (checkParameterChanges a cache).2
        = dictInsert (dictInsert (dictInsert cache "environment_hash" (hashDict a.environment))
            "replacements_hash" (hashDict a.replacements))
            "configuration_hash" a.configurationHash from rfl]
    rw [lookupD_dictInsert_ne _ _ _ _ _ (by decide), lookupD_dictInsert_self]
  · rw [show (checkParameterChanges a cache).2
        = dictInsert (dictInsert (dictInsert cache "environment_hash" (hashDict a.environment))
            "replacements_hash" (hashDict a.replacements))
            "configuration_hash" a.configurationHash from rfl]
    rw [lookupD_dictInsert_self]
  · intro hc
    subst hc
    simp [checkParameterChanges, lookupD, Bool.or_eq_true, bne_iff_ne]
    exact Or.inl (Or.inl (hashDict_ne_empty _))

/-- Witness for C3 at a concrete first-ever-seen application. -/
theorem checkParameterChanges_spec_witness :
    (checkParameterChanges ⟨[], [], "cfg"⟩ []).1 = true :=
  (checkParameterChanges_spec ⟨[], [], "cfg"⟩ []).2.2.2.2.2 rfl

/-! ## `_render_template` (cli.py lines 53-76)

Two `re.sub` passes over the template text:
pass 1, per replacement key K in dict order, substitutes every match of
the pattern \x7b\x7b\s*HM_K(?:\:(.*?))?\s*\x7d\x7d by the value;
pass 2 substitutes every match of \x7b\x7b\s*HM_(?:.*?)\:(.*?)\s*\x7d\x7d
by the evaluated default literal, or by the sentinel
HM_INVALID_DEFAULT_VALUE when the default is not a valid literal.

The patterns are transcribed into direct scanners.  Python regex facts
used: matching is leftmost, continuing after each match; the dot does not
match a newline while \s does; a greedy \s* followed by a non-whitespace
literal can only match the maximal whitespace run; the lazy groups take
the shortest prefix whose continuation matches; the optional default
group is tried before its absence.  Replacement strings are inserted
literally (faithful for values without backslashes, the case throughout
this development), and `ast.literal_eval` is modelled on integers, simple
quoted strings, True, False and None.
-/

/-- Python regex \s on ASCII. -/
def isPySpace (c : Char) : Bool :=
  c = ' ' || c = '\t' || c = '\n' || c = '\r' || c = '\x0b' || c = '\x0c'

/-- Consume the maximal whitespace run (greedy \s* before a non-space literal). -/
def dropWs : List Char → List Char
  | [] => []
  | c :: t => if isPySpace c then dropWs t else c :: t

/-- Strip a literal pattern prefix. -/
def stripPfx : List Char → List Char → Option (List Char)
  | [], s => some s
  | _ :: _, [] => none
  | p :: ps, c :: cs => if p = c then stripPfx ps cs else none

/-- The lazy tail (.*?)\s*\x7d\x7d of both patterns: the shortest prefix of
non-newline characters (the captured group) after which maximal whitespace
followed by the two closing braces matches; returns the group and the rest
after the braces. -/
def findTerm : List Char → Option (List Char × List Char)
  | [] => none
  | c :: t =>
    match stripPfx ['}', '}'] (dropWs (c :: t)) with
    | some rest => some ([], rest)
    | none =>
      if c = '\n' then none
      else
        match findTerm t with
        | some (g, r) => some (c :: g, r)
        | none => none

/-- The optional default group (?:\:(.*?))? tried greedily right after the
key: a literal colon, then the lazy default-and-close tail. -/
def matchVarTail (s2 : List Char) : Option (List Char) :=
  match s2 with
  | [] => none
  | c :: t =>
    if c = ':' then
      match findTerm t with
      | some (_, rest) => some rest
      | none => none
    else none

/-- Attempted match of the pass-1 pattern for key k at the head of s;
returns the rest of the text after the match.  The with-default branch is
preferred; when it fails the group is dropped and \s*\x7d\x7d must follow
the key directly (if the head after the key is a colon that fallback
necessarily fails too, as the regex would). -/
def matchVar (k : List Char) (s : List Char) : Option (List Char) :=
  match stripPfx ['{', '{'] s with
  | none => none
  | some s1 =>
    match stripPfx (['H', 'M', '_'] ++ k) (dropWs s1) with
    | none => none
    | some s2 =>
      match matchVarTail s2 with
      | some rest => some rest
      | none =>
        match stripPfx ['}', '}'] (dropWs s2) with
        | some rest => some rest
        | none => none

/-- The lazy (?:.*?)\: of the pass-2 pattern: try each non-newline-reachable
colon in turn, at each one trying the default-and-close tail. -/
def scanColon : List Char → Option (List Char × List Char)
  | [] => none
  | c :: t =>
    if c = '\n' then none
    else if c = ':' then
      match findTerm t with
      | some (g, r) => some (g, r)
      | none => scanColon t
    else scanColon t

/-- Attempted match of the pass-2 (defaults) pattern at the head of s;
returns the captured default group and the rest after the match. -/
def matchDefault (s : List Char) : Option (List Char × List Char) :=
  match stripPfx ['{', '{'] s with
  | none => none
  | some s1 =>
    match stripPfx ['H', 'M', '_'] (dropWs s1) with
    | none => none
    | some s2 => scanColon s2

def isDigitB (c : Char) : Bool := Nat.ble 48 c.toNat && Nat.ble c.toNat 57

def trimWs (s : List Char) : List Char := (dropWs (dropWs s.reverse).reverse)

/-- str() of an integer literal: sign and leading-zero handling. -/
def intLitStr (neg : Bool) (ds : List Char) : Option (List Char) :=
  if ds.isEmpty then none
  else if !ds.all isDigitB then none
  else if ds = ['0'] then some ['0']
  else if ds.head? = some '0' then none
  else some (if neg then '-' :: ds else ds)

/-- str() of a simple quoted string literal: opening quote already consumed;
t must be content (no quote, backslash or newline) plus the closing quote. -/
def strLitStr (q : Char) (t : List Char) : Option (List Char) :=
  if t.getLast? = some q
      && (t.dropLast.all fun c => !(c = q) && !(c = '\\') && !(c = '\n')) then
    some t.dropLast
  else none

/-- `str(ast.literal_eval(g))` on the modelled literal subset, none when
the literal is invalid. -/
def literalEvalStr (g : List Char) : Option (List Char) :=
  let s := trimWs g
  if s = ['T', 'r', 'u', 'e'] then some s
  else if s = ['F', 'a', 'l', 's', 'e'] then some s
  else if s = ['N', 'o', 'n', 'e'] then some s
  else
    match s with
    | '\'' :: t => strLitStr '\'' t
    | '"' :: t => strLitStr '"' t
    | '-' :: t => intLitStr true t
    | '+' :: t => intLitStr false t
    | _ => intLitStr false s

/-- `replacement_fn` (cli.py lines 63-68). -/
def replacementFn (g : List Char) : List Char :=
  match literalEvalStr g with
  | some v => v
  | none => "HM_INVALID_DEFAULT_VALUE".data

/-- One pass-1 `re.sub`: scan left to right, substitute each match of key
k's pattern by v, continuing after the match (fuel-structural; fuel is the
text length). -/
def sub1Go (k v : List Char) : Nat → List Char → List Char
  | 0, s => s
  | _ + 1, [] => []
  | f + 1, c :: t =>
    match matchVar k (c :: t) with
    | some rest => v ++ sub1Go k v f rest
    | none => c :: sub1Go k v f t

def sub1 (k v s : List Char) : List Char := sub1Go k v s.length s

/-- The pass-2 `re.sub` with `replacement_fn`. -/
def sub2Go : Nat → List Char → List Char
  | 0, s => s
  | _ + 1, [] => []
  | f + 1, c :: t =>
    match matchDefault (c :: t) with
    | some (g, rest) => replacementFn g ++ sub2Go f rest
    | none => c :: sub2Go f t

def sub2 (s : List Char) : List Char := sub2Go s.length s

/-- `_render_template` (cli.py lines 53-76) over char lists; the
replacement dict is an insertion-ordered association list. -/
def renderL (t : List Char) (reps : List (List Char × List Char)) : List Char :=
  sub2 (reps.foldl (fun acc p => sub1 p.1 p.2 acc) t)

/-- `_render_template` over strings. -/
def renderTemplate (template : String) (replacements : List (String × String)) : String :=
  String.mk (renderL template.data (replacements.map fun p => (p.1.data, p.2.data)))

set_option maxRecDepth 40000 in
/-- C6: the three round-trip examples of the template renderer, with the
replacement mapping FOO=3, BAR=4 (values stringified as the source does).
A keyed placeholder with a default takes the value; an unkeyed placeholder
with a parseable default takes the default; an unkeyed placeholder without
a default is left completely untouched; an unkeyed placeholder whose
default is not a literal becomes the sentinel HM_INVALID_DEFAULT_VALUE. -/
theorem renderTemplate_examples :
    renderTemplate "\x7b\x7b HM_FOO \x7d\x7d, \x7b\x7b HM_BAR \x7d\x7d, \x7b\x7b HM_BAZ:80 \x7d\x7d"
        [("FOO", "3"), ("BAR", "4")] = "3, 4, 80" ∧
    renderTemplate "\x7b\x7b HM_FOO \x7d\x7d \x7b\x7b HM_BAZ \x7d\x7d"
        [("FOO", "3"), ("BAR", "4")] = "3 \x7b\x7b HM_BAZ \x7d\x7d" ∧
    renderTemplate "\x7b\x7b HM_BAR \x7d\x7d, \x7b\x7b HM_BAZ:a \x7d \x7d\x7d"
        [("FOO", "3"), ("BAR", "4")] = "4, HM_INVALID_DEFAULT_VALUE" := by
  exact ⟨by decide, by decide, by decide⟩

/-! ## A placeholder grammar for reasoning about rendering

To state which placeholders occur in a text, the text is decomposed into
literal segments and well-formed placeholder tokens.  A placeholder is
the delimiters, inner whitespace, the fixed HM_ tag, an identifier name
and an optional default; a literal segment carries no brace characters.
-/

inductive Chunk where
  | lit (s : List Char)
  | ph (name : List Char) (dflt : Option (List Char)) (w1 w2 : List Char)
  deriving DecidableEq

/-- The optional default clause of a placeholder. -/
def dfltPart : Option (List Char) → List Char
  | some dd => ':' :: dd
  | none => []

/-- The text of one chunk. -/
def chunkStr : Chunk → List Char
  | .lit s => s
  | .ph n d w1 w2 =>
    '{' :: '{' :: (w1 ++ ['H', 'M', '_'] ++ n ++ dfltPart d ++ w2 ++ ['}', '}'])

def textOf (cs : List Chunk) : List Char := (cs.map chunkStr).flatten

def identChar (c : Char) : Bool :=
  (Nat.ble 48 c.toNat && Nat.ble c.toNat 57) || (Nat.ble 65 c.toNat && Nat.ble c.toNat 90)
    || (Nat.ble 97 c.toNat && Nat.ble c.toNat 122) || c = '_'

def noBrace (s : List Char) : Bool := s.all fun c => !(c = '{') && !(c = '}')

def wsOK (w : List Char) : Bool := w.all isPySpace

def dfltOK : Option (List Char) → Bool
  | none => true
  | some d => d.all fun c => !(c = '{') && !(c = '}') && !(c = '\n')

def chunkOK : Chunk → Bool
  | .lit s => noBrace s
  | .ph n d w1 w2 => !n.isEmpty && n.all identChar && dfltOK d && wsOK w1 && wsOK w2

def chunksOK (cs : List Chunk) : Bool := cs.all chunkOK

/-- Well-formed replacement mapping: identifier keys; values free of brace
and backslash characters. -/
def repsOK (reps : List (List Char × List Char)) : Bool :=
  reps.all fun p =>
    !p.1.isEmpty && p.1.all identChar && p.2.all fun c => !(c = '{') && !(c = '}') && !(c = '\\')

/-- Every placeholder of the decomposition has a matching key. -/
def phKeyed (reps : List (List Char × List Char)) : Chunk → Bool
  | .lit _ => true
  | .ph n _ _ _ => (reps.map Prod.fst).contains n

def allKeyed (cs : List Chunk) (reps : List (List Char × List Char)) : Bool :=
  cs.all (phKeyed reps)

/-- Rendering a chunk text directly (pass 1 folded over the dict, then pass 2). -/
def applyAll (reps : List (List Char × List Char)) (t : List Char) : List Char :=
  reps.foldl (fun acc p => sub1 p.1 p.2 acc) t

/-- Substituting one key in a decomposed text. -/
def substChunk (k v : List Char) : Chunk → Chunk
  | .lit s => .lit s
  | .ph n d w1 w2 => if n = k then .lit v else .ph n d w1 w2

set_option maxRecDepth 40000 in
/-- C5 counterexample: in the text consisting of the single well-formed
placeholder for A, every placeholder has a matching key in the mapping
with B mapped to x and A mapped to the text of the placeholder for B, yet
rendering is not idempotent: one render yields the placeholder for B (A's
value), a second render yields x. -/
theorem renderTemplate_not_idempotent :
    chunksOK [Chunk.ph "A".data none [' '] [' ']] = true ∧
    allKeyed [Chunk.ph "A".data none [' '] [' ']]
      [("B".data, "x".data), ("A".data, "\x7b\x7b HM_B \x7d\x7d".data)] = true ∧
    textOf [Chunk.ph "A".data none [' '] [' ']] = "\x7b\x7b HM_A \x7d\x7d".data ∧
    renderL
        (renderL (textOf [Chunk.ph "A".data none [' '] [' ']])
          [("B".data, "x".data), ("A".data, "\x7b\x7b HM_B \x7d\x7d".data)])
        [("B".data, "x".data), ("A".data, "\x7b\x7b HM_B \x7d\x7d".data)]
      ≠ renderL (textOf [Chunk.ph "A".data none [' '] [' ']])
        [("B".data, "x".data), ("A".data, "\x7b\x7b HM_B \x7d\x7d".data)] := by
  exact ⟨by decide, by decide, by decide, by decide⟩

/-! ### Character-class and scanner lemmas -/

theorem identChar_facts (c : Char) (h : identChar c = true) :
    c ≠ ':' ∧ c ≠ '{' ∧ c ≠ '}' ∧ isPySpace c = false := by
  refine ⟨?_, ?_, ?_, ?_⟩
  · intro he; subst he; revert h; decide
  · intro he; subst he; revert h; decide
  · intro he; subst he; revert h; decide
  · rcases hw : isPySpace c with _ | _
    · rfl
    · exfalso
      simp only [isPySpace, Bool.or_eq_true, decide_eq_true_eq] at hw
      rcases hw with ((((h1 | h1) | h1) | h1) | h1) | h1 <;> subst h1 <;> revert h <;> decide

theorem pySpace_ne_brace (c : Char) (h : isPySpace c = true) :
    c ≠ '{' ∧ c ≠ '}' ∧ c ≠ ':' := by
  simp only [isPySpace, Bool.or_eq_true, decide_eq_true_eq] at h
  rcases h with ((((h1 | h1) | h1) | h1) | h1) | h1 <;> subst h1 <;> exact ⟨by decide, by decide, by decide⟩

theorem dropWs_append_ws (w s : List Char) (h : wsOK w = true) :
    dropWs (w ++ s) = dropWs s := by
  induction w with
  | nil => rfl
  | cons c t ih =>
    simp only [wsOK, List.all_cons, Bool.and_eq_true] at h
    simpa [dropWs, h.1] using ih (by simpa [wsOK] using h.2)

theorem dropWs_cons_nonws (c : Char) (s : List Char) (h : isPySpace c = false) :
    dropWs (c :: s) = c :: s := by
  simp [dropWs, h]

theorem stripPfx_self_append (p s : List Char) : stripPfx p (p ++ s) = some s := by
  induction p with
  | nil => rfl
  | cons c t ih => simp [stripPfx, ih]

theorem stripPfx_append_pat (p q s : List Char) :
    stripPfx (p ++ q) s = (stripPfx p s).bind (stripPfx q) := by
  induction p generalizing s with
  | nil => simp [stripPfx]
  | cons c t ih =>
    cases s with
    | nil => simp [stripPfx]
    | cons c2 s2 =>
      by_cases hc : c = c2 <;> simp [stripPfx, hc, ih]

theorem dropWs_length_le (s : List Char) : (dropWs s).length ≤ s.length := by
  induction s with
  | nil => simp [dropWs]
  | cons c t ih =>
    by_cases hc : isPySpace c = true
    · simp only [dropWs, hc, if_true]
      exact Nat.le_succ_of_le ih
    · simp [dropWs, hc]

theorem stripPfx_length (p : List Char) :
    ∀ s r, stripPfx p s = some r → r.length + p.length = s.length := by
  induction p with
  | nil =>
    intro s r h
    simp [stripPfx] at h
    simp [h]
  | cons c t ih =>
    intro s r h
    cases s with
    | nil => simp [stripPfx] at h
    | cons c2 s2 =>
      by_cases hc : c = c2
      · simp only [stripPfx, hc, if_pos rfl] at h
        have := ih s2 r h
        simp only [List.length_cons]
        omega
      · simp [stripPfx, hc] at h

theorem findTerm_length (s : List Char) :
    ∀ g r, findTerm s = some (g, r) → r.length < s.length := by
  induction s with
  | nil => intro g r h; simp [findTerm] at h
  | cons c t ih =>
    intro g r h
    rw [findTerm] at h
    split at h
    · rename_i X hs
      simp only [Option.some.injEq, Prod.mk.injEq] at h
      obtain ⟨h5, h6⟩ := h
      subst h6
      have h1 := stripPfx_length _ _ _ hs
      have h2 := dropWs_length_le (c :: t)
      simp only [List.length_cons, List.length_nil] at h1 h2 ⊢
      omega
    · split at h
      · simp at h
      · split at h
        · rename_i g2 r2 hf
          simp only [Option.some.injEq, Prod.mk.injEq] at h
          obtain ⟨h5, h6⟩ := h
          subst h6
          have := ih _ _ hf
          simp only [List.length_cons]
          omega
        · simp at h

theorem matchVarTail_length (s : List Char) :
    ∀ r, matchVarTail s = some r → r.length < s.length := by
  intro r h
  cases s with
  | nil => simp [matchVarTail] at h
  | cons c t =>
    rw [matchVarTail] at h
    split at h
    · split at h
      · rename_i g2 r2 hf
        simp only [Option.some.injEq] at h
        subst h
        have := findTerm_length t g2 r2 hf
        simp only [List.length_cons]
        omega
      · simp at h
    · simp at h

theorem matchVar_length (k s : List Char) :
    ∀ r, matchVar k s = some r → r.length < s.length := by
  intro r h
  rw [matchVar] at h
  split at h
  · simp at h
  · rename_i s1 h1
    have hl1 := stripPfx_length _ _ _ h1
    split at h
    · simp at h
    · rename_i s2 h2
      have hl2 := stripPfx_length _ _ _ h2
      have hl3 := dropWs_length_le s1
      split at h
      · rename_i r2 h3
        simp only [Option.some.injEq] at h
        subst h
        have hl4 := matchVarTail_length s2 r2 h3
        simp only [List.length_append, List.length_cons, List.length_nil] at hl1 hl2
        omega
      · split at h
        · rename_i r3 h4
          simp only [Option.some.injEq] at h
          subst h
          have hl4 := stripPfx_length _ _ _ h4
          have hl5 := dropWs_length_le s2
          simp only [List.length_append, List.length_cons, List.length_nil] at hl1 hl2 hl4
          omega
        · simp at h

theorem sub1Go_congr (k v : List Char) :
    ∀ n f g s, s.length ≤ n → s.length ≤ f → s.length ≤ g →
      sub1Go k v f s = sub1Go k v g s := by
  intro n
  induction n with
  | zero =>
    intro f g s hn _ _
    have : s = [] := List.length_eq_zero.mp (Nat.le_zero.mp hn)
    subst this
    cases f <;> cases g <;> rfl
  | succ n ih =>
    intro f g s hn hf hg
    cases s with
    | nil => cases f <;> cases g <;> rfl
    | cons c t =>
      simp only [List.length_cons] at hn hf hg
      rcases f with _ | f2
      · omega
      rcases g with _ | g2
      · omega
      rw [sub1Go, sub1Go]
      rcases hm : matchVar k (c :: t) with _ | rest
      · dsimp only
        rw [ih f2 g2 t (by omega) (by omega) (by omega)]
      · dsimp only
        have := matchVar_length k (c :: t) rest hm
        simp only [List.length_cons] at this
        rw [ih f2 g2 rest (by omega) (by omega) (by omega)]

theorem dropWs_cons_ws (c : Char) (s : List Char) (h : isPySpace c = true) :
    dropWs (c :: s) = dropWs s := by
  simp [dropWs, h]

theorem matchVar_cons_ne (k : List Char) (c : Char) (t : List Char) (h : ¬(c = '{')) :
    matchVar k (c :: t) = none := by
  have h2 : ('{' = c) = False := by
    simp only [eq_iff_iff, iff_false]
    intro he
    exact h he.symm
  simp [matchVar, stripPfx, h2]

theorem matchVar_two_ne (k : List Char) (c : Char) (t : List Char) (h : ¬(c = '{')) :
    matchVar k ('{' :: c :: t) = none := by
  have h2 : ('{' = c) = False := by
    simp only [eq_iff_iff, iff_false]
    intro he
    exact h he.symm
  simp [matchVar, stripPfx, h2]

theorem matchDefault_cons_ne (c : Char) (t : List Char) (h : ¬(c = '{')) :
    matchDefault (c :: t) = none := by
  have h2 : ('{' = c) = False := by
    simp only [eq_iff_iff, iff_false]
    intro he
    exact h he.symm
  simp [matchDefault, stripPfx, h2]

theorem sub1Go_copy (k v : List Char) :
    ∀ s : List Char, (s.all fun c => !(c = '{')) = true →
      ∀ rest f, s.length + rest.length ≤ f →
        sub1Go k v f (s ++ rest) = s ++ sub1Go k v rest.length rest := by
  intro s
  induction s with
  | nil =>
    intro _ rest f hf
    simpa using
      sub1Go_congr k v rest.length f rest.length rest (le_refl _) (by simpa using hf) (le_refl _)
  | cons c t ih =>
    intro hs rest f hf
    simp only [List.all_cons, Bool.and_eq_true, Bool.not_eq_true', decide_eq_false_iff_not] at hs
    rcases f with _ | f2
    · simp only [List.length_cons] at hf
      omega
    · rw [List.cons_append, sub1Go]
      simp only [matchVar_cons_ne k c (t ++ rest) hs.1]
      rw [ih (by simpa [List.all_eq_true, decide_eq_false_iff_not] using hs.2) rest f2
        (by simp only [List.length_cons] at hf; omega)]
      rfl

theorem sub1Go_id (k v : List Char) :
    ∀ f s, (s.all fun c => !(c = '{')) = true → sub1Go k v f s = s := by
  intro f
  induction f with
  | zero => intro s _; rfl
  | succ f ih =>
    intro s hs
    cases s with
    | nil => rfl
    | cons c t =>
      simp only [List.all_cons, Bool.and_eq_true, Bool.not_eq_true',
        decide_eq_false_iff_not] at hs
      rw [sub1Go]
      simp only [matchVar_cons_ne k c t hs.1]
      rw [ih t (by simpa [List.all_eq_true, decide_eq_false_iff_not] using hs.2)]

theorem sub2Go_id :
    ∀ f s, (s.all fun c => !(c = '{')) = true → sub2Go f s = s := by
  intro f
  induction f with
  | zero => intro s _; rfl
  | succ f ih =>
    intro s hs
    cases s with
    | nil => rfl
    | cons c t =>
      simp only [List.all_cons, Bool.and_eq_true, Bool.not_eq_true',
        decide_eq_false_iff_not] at hs
      rw [sub2Go]
      simp only [matchDefault_cons_ne c t hs.1]
      rw [ih t (by simpa [List.all_eq_true, decide_eq_false_iff_not] using hs.2)]

theorem stripTerm_parts (w2 rest : List Char) (hw : wsOK w2 = true) :
    ∀ d : List Char, (d.all fun c => !(c = '}') && !(c = '\n')) = true →
      ∀ X, stripPfx ['}', '}'] (dropWs (d ++ (w2 ++ '}' :: '}' :: rest))) = some X → X = rest := by
  intro d
  induction d with
  | nil =>
    intro _ X h
    rw [List.nil_append, dropWs_append_ws w2 _ hw, dropWs_cons_nonws _ _ (by decide)] at h
    simp [stripPfx] at h
    exact h.symm
  | cons c d ih =>
    intro hd X h
    simp only [List.all_cons, Bool.and_eq_true, Bool.not_eq_true',
      decide_eq_false_iff_not] at hd
    rw [List.cons_append] at h
    by_cases hcw : isPySpace c = true
    · rw [dropWs_cons_ws _ _ hcw] at h
      refine ih ?_ X h
      simp only [List.all_eq_true]
      simp only [List.all_eq_true] at hd
      exact hd.2
    · rw [dropWs_cons_nonws _ _ (by simpa using hcw)] at h
      have h2 : ('}' = c) = False := by
        simp only [eq_iff_iff, iff_false]
        intro he
        exact hd.1.1 he.symm
      simp [stripPfx, h2] at h

theorem findTerm_parts (w2 rest : List Char) (hw : wsOK w2 = true) :
    ∀ d : List Char, (d.all fun c => !(c = '}') && !(c = '\n')) = true →
      ∃ g, findTerm (d ++ (w2 ++ '}' :: '}' :: rest)) = some (g, rest) := by
  intro d
  induction d with
  | nil =>
    cases w2 with
    | nil =>
      intro _
      refine ⟨[], ?_⟩
      rw [List.nil_append, List.nil_append, findTerm]
      rw [dropWs_cons_nonws _ _ (by decide)]
      rfl
    | cons cw w2t =>
      intro _
      refine ⟨[], ?_⟩
      simp only [wsOK, List.all_cons, Bool.and_eq_true] at hw
      rw [List.nil_append, List.cons_append, findTerm]
      rw [show dropWs (cw :: (w2t ++ '}' :: '}' :: rest)) = '}' :: '}' :: rest by
        rw [dropWs_cons_ws _ _ hw.1, dropWs_append_ws w2t _ (by simpa [wsOK] using hw.2),
          dropWs_cons_nonws _ _ (by decide)]]
      rfl
  | cons c d ih =>
    intro hd
    simp only [List.all_cons, Bool.and_eq_true] at hd
    have hd2 := hd.2
    have hc := hd.1
    simp only [Bool.and_eq_true, Bool.not_eq_true', decide_eq_false_iff_not] at hc
    rw [List.cons_append]
    rcases hs : stripPfx ['}', '}'] (dropWs (c :: (d ++ (w2 ++ '}' :: '}' :: rest)))) with _ | X
    · obtain ⟨g, hg⟩ := ih hd2
      refine ⟨c :: g, ?_⟩
      rw [findTerm, hs]
      have h2 : (c = '\n') = False := by
        simp only [eq_iff_iff, iff_false]
        exact hc.2
      simp [h2, hg]
    · have hX : X = rest := by
        refine stripTerm_parts w2 rest hw (c :: d) ?_ X ?_
        · simp only [List.all_cons, Bool.and_eq_true, Bool.not_eq_true',
            decide_eq_false_iff_not]
          refine ⟨⟨hc.1, hc.2⟩, ?_⟩
          simpa using hd2
        · rw [List.cons_append]
          exact hs
      subst hX
      refine ⟨[], ?_⟩
      rw [findTerm, hs]

theorem stripPfx_ident_cases :
    ∀ k n Y : List Char, ¬(n = k) → k.all identChar = true → n.all identChar = true →
      stripPfx k (n ++ Y) = none ∨
      (∃ c n2, n = k ++ (c :: n2) ∧ identChar c = true ∧
        stripPfx k (n ++ Y) = some (c :: (n2 ++ Y))) ∨
      (∃ c k2, k = n ++ (c :: k2) ∧ identChar c = true ∧
        stripPfx k (n ++ Y) = stripPfx (c :: k2) Y) := by
  intro k
  induction k with
  | nil =>
    intro n Y hne _ hn
    right; left
    cases n with
    | nil => exact absurd rfl hne
    | cons c n2 =>
      simp only [List.all_cons, Bool.and_eq_true] at hn
      exact ⟨c, n2, by simp, hn.1, by simp [stripPfx]⟩
  | cons a k2 ih =>
    intro n Y hne hk hn
    simp only [List.all_cons, Bool.and_eq_true] at hk
    cases n with
    | nil =>
      right; right
      exact ⟨a, k2, by simp, hk.1, by simp⟩
    | cons b n2 =>
      simp only [List.all_cons, Bool.and_eq_true] at hn
      by_cases hab : a = b
      · subst hab
        have hne2 : ¬(n2 = k2) := fun he => hne (by rw [he])
        have hred : stripPfx (a :: k2) ((a :: n2) ++ Y) = stripPfx k2 (n2 ++ Y) := by
          rw [List.cons_append]
          simp [stripPfx]
        rcases ih n2 Y hne2 hk.2 hn.2 with h | ⟨c, m, hm, hc, hs⟩ | ⟨c, m, hm, hc, hs⟩
        · left
          rw [hred, h]
        · right; left
          refine ⟨c, m, by rw [hm]; rfl, hc, ?_⟩
          rw [hred, hs]
        · right; right
          refine ⟨c, m, by rw [hm]; rfl, hc, ?_⟩
          rw [hred, hs]
      · left
        have h2 : (a = b) = False := by
          simp only [eq_iff_iff, iff_false]
          exact hab
        simp [stripPfx, h2]

theorem chunkOK_ph_parts (n : List Char) (d : Option (List Char)) (w1 w2 : List Char)
    (hok : chunkOK (.ph n d w1 w2) = true) :
    ¬(n = []) ∧ n.all identChar = true ∧ dfltOK d = true ∧ wsOK w1 = true ∧ wsOK w2 = true := by
  simp only [chunkOK, Bool.and_eq_true] at hok
  obtain ⟨⟨⟨⟨h0, h1⟩, h2⟩, h3⟩, h4⟩ := hok
  refine ⟨?_, h1, h2, h3, h4⟩
  intro he
  subst he
  simp at h0

theorem chunkStr_ph_append (n : List Char) (d : Option (List Char)) (w1 w2 rest : List Char) :
    chunkStr (.ph n d w1 w2) ++ rest
      = '{' :: '{' :: (w1 ++ ('H' :: 'M' :: '_' :: (n ++
          (dfltPart d ++ (w2 ++ '}' :: '}' :: rest))))) := by
  simp [chunkStr, List.append_assoc]

/-- The pass-1 match at the head of a well-placed key: everything after the
key reduces to the optional-default-or-close decision on the tail. -/
theorem matchVar_parts (k w1 Y : List Char) (hw1 : wsOK w1 = true) :
    matchVar k ('{' :: '{' :: (w1 ++ ('H' :: 'M' :: '_' :: (k ++ Y)))) =
      (match matchVarTail Y with
        | some rest => some rest
        | none =>
          match stripPfx ['}', '}'] (dropWs Y) with
          | some rest => some rest
          | none => none) := by
  rw [matchVar]
  rw [show stripPfx ['{', '{'] ('{' :: '{' :: (w1 ++ ('H' :: 'M' :: '_' :: (k ++ Y))))
      = some (w1 ++ ('H' :: 'M' :: '_' :: (k ++ Y))) by simp [stripPfx]]
  dsimp only
  rw [dropWs_append_ws _ _ hw1, dropWs_cons_nonws _ _ (by decide)]
  rw [stripPfx_append_pat]
  rw [show stripPfx ['H', 'M', '_'] ('H' :: 'M' :: '_' :: (k ++ Y)) = some (k ++ Y) by
    simp [stripPfx]]
  dsimp only [Option.bind]
  rw [stripPfx_self_append]

/-- The pass-1 match for key k at the head of a placeholder with a
different identifier name never succeeds. -/
theorem matchVar_parts_ne (k n w1 Y : List Char) (hw1 : wsOK w1 = true)
    (hne : ¬(n = k)) (hk : k.all identChar = true) (hn : n.all identChar = true)
    (h3 : ∀ c k2, identChar c = true → stripPfx (c :: k2) Y = none) :
    matchVar k ('{' :: '{' :: (w1 ++ ('H' :: 'M' :: '_' :: (n ++ Y)))) = none := by
  rw [matchVar]
  rw [show stripPfx ['{', '{'] ('{' :: '{' :: (w1 ++ ('H' :: 'M' :: '_' :: (n ++ Y))))
      = some (w1 ++ ('H' :: 'M' :: '_' :: (n ++ Y))) by simp [stripPfx]]
  dsimp only
  rw [dropWs_append_ws _ _ hw1, dropWs_cons_nonws _ _ (by decide)]
  rw [stripPfx_append_pat]
  rw [show stripPfx ['H', 'M', '_'] ('H' :: 'M' :: '_' :: (n ++ Y)) = some (n ++ Y) by
    simp [stripPfx]]
  dsimp only [Option.bind]
  rcases stripPfx_ident_cases k n Y hne hk hn with h | ⟨c, m, hm, hc, hs⟩ | ⟨c, m, hm, hc, hs⟩
  · rw [h]
  · rw [hs]
    dsimp only
    obtain ⟨hc1, hc2, hc3, hc4⟩ := identChar_facts c hc
    rw [show matchVarTail (c :: (m ++ Y)) = none by
      rw [matchVarTail]
      have h2 : (c = ':') = False := by
        simp only [eq_iff_iff, iff_false]
        exact hc1
      simp [h2]]
    dsimp only
    rw [dropWs_cons_nonws _ _ hc4]
    have h3b : ('}' = c) = False := by
      simp only [eq_iff_iff, iff_false]
      intro he
      exact hc3 he.symm
    simp [stripPfx, h3b]
  · rw [hs, h3 c m hc]

/-- matchVar consumes exactly its own well-formed placeholder. -/
theorem matchVar_ph_self (k : List Char) (d : Option (List Char)) (w1 w2 rest : List Char)
    (hok : chunkOK (.ph k d w1 w2) = true) :
    matchVar k (chunkStr (.ph k d w1 w2) ++ rest) = some rest := by
  obtain ⟨hne0, hkid, hdok, hw1, hw2⟩ := chunkOK_ph_parts k d w1 w2 hok
  rw [chunkStr_ph_append, matchVar_parts k w1 _ hw1]
  rcases d with _ | dd
  · rw [show dfltPart none = ([] : List Char) from rfl]
    rw [show matchVarTail ([] ++ (w2 ++ '}' :: '}' :: rest)) = none by
      rw [List.nil_append]
      cases w2 with
      | nil =>
        rw [List.nil_append, matchVarTail]
        simp
      | cons cw w2t =>
        simp only [wsOK, List.all_cons, Bool.and_eq_true] at hw2
        rw [List.cons_append, matchVarTail]
        have h2 : (cw = ':') = False := by
          simp only [eq_iff_iff, iff_false]
          exact (pySpace_ne_brace cw hw2.1).2.2
        simp [h2]]
    dsimp only
    rw [List.nil_append, dropWs_append_ws _ _ hw2, dropWs_cons_nonws _ _ (by decide)]
    simp [stripPfx]
  · have hdd : (dd.all fun c => !(c = '}') && !(c = '\n')) = true := by
      simp only [dfltOK, List.all_eq_true, Bool.and_eq_true] at hdok ⊢
      exact fun x hx => ⟨(hdok x hx).1.2, (hdok x hx).2⟩
    obtain ⟨g, hg⟩ := findTerm_parts w2 rest hw2 dd hdd
    rw [show dfltPart (some dd) = ':' :: dd from rfl]
    rw [List.cons_append, matchVarTail]
    simp [hg]

/-- matchVar for key k never fires at the head of a placeholder with a
different name. -/
theorem matchVar_ph_ne (k n : List Char) (d : Option (List Char)) (w1 w2 rest : List Char)
    (hk : k.all identChar = true)
    (hok : chunkOK (.ph n d w1 w2) = true) (hne : ¬(n = k)) :
    matchVar k (chunkStr (.ph n d w1 w2) ++ rest) = none := by
  obtain ⟨hne0, hnid, hdok, hw1, hw2⟩ := chunkOK_ph_parts n d w1 w2 hok
  rw [chunkStr_ph_append]
  refine matchVar_parts_ne k n w1 _ hw1 hne hk hnid ?_
  intro c k2 hc
  obtain ⟨hc1, hc2, hc3, hc4⟩ := identChar_facts c hc
  rcases d with _ | dd
  · rw [show dfltPart none = ([] : List Char) from rfl, List.nil_append]
    cases w2 with
    | nil =>
      rw [List.nil_append]
      have h2 : (c = '}') = False := by
        simp only [eq_iff_iff, iff_false]
        exact hc3
      simp [stripPfx, h2]
    | cons cw w2t =>
      simp only [wsOK, List.all_cons, Bool.and_eq_true] at hw2
      rw [List.cons_append]
      have h2 : (c = cw) = False := by
        simp only [eq_iff_iff, iff_false]
        intro he
        subst he
        rw [hc4] at hw2
        exact Bool.false_ne_true hw2.1
      simp [stripPfx, h2]
  · rw [show dfltPart (some dd) = ':' :: dd from rfl, List.cons_append]
    have h2 : (c = ':') = False := by
      simp only [eq_iff_iff, iff_false]
      exact hc1
    simp [stripPfx, h2]

theorem wsOK_no_lbrace (w : List Char) (hw : wsOK w = true) :
    (w.all fun c => !(c = '{')) = true := by
  simp only [wsOK, List.all_eq_true] at hw
  simp only [List.all_eq_true]
  intro x hx
  simpa using (pySpace_ne_brace x (hw x hx)).1

theorem identList_no_lbrace (m : List Char) (hm : m.all identChar = true) :
    (m.all fun c => !(c = '{')) = true := by
  simp only [List.all_eq_true] at hm
  simp only [List.all_eq_true]
  intro x hx
  simpa using (identChar_facts x (hm x hx)).2.1

/-- Scanning for key k walks over a well-formed placeholder of a different
name without changing it. -/
theorem sub1Go_ph_skip (k v n : List Char) (d : Option (List Char)) (w1 w2 : List Char)
    (hkid : k.all identChar = true)
    (hok : chunkOK (.ph n d w1 w2) = true) (hne : ¬(n = k)) :
    ∀ rest f, (chunkStr (.ph n d w1 w2) ++ rest).length ≤ f →
      sub1Go k v f (chunkStr (.ph n d w1 w2) ++ rest)
        = chunkStr (.ph n d w1 w2) ++ sub1Go k v rest.length rest := by
  obtain ⟨hne0, hnid, hdok, hw1, hw2⟩ := chunkOK_ph_parts n d w1 w2 hok
  intro rest f hf
  have hX : chunkStr (.ph n d w1 w2)
      = '{' :: '{' :: (w1 ++ ['H', 'M', '_'] ++ n
        ++ dfltPart d ++ w2 ++ ['}', '}']) := rfl
  have hdp : ((dfltPart d).all fun c => !(c = '{')) = true := by
    rcases d with _ | dd
    · rfl
    · simp only [dfltPart, List.all_cons, Bool.and_eq_true]
      refine ⟨by decide, ?_⟩
      simp only [dfltOK, List.all_eq_true, Bool.and_eq_true] at hdok
      simp only [List.all_eq_true]
      intro x hx
      exact (hdok x hx).1.1
  have hBall : ((w1 ++ ['H', 'M', '_'] ++ n
      ++ dfltPart d ++ w2 ++ ['}', '}']).all
      fun c => !(c = '{')) = true := by
    simp only [List.all_append, Bool.and_eq_true]
    exact ⟨⟨⟨⟨⟨wsOK_no_lbrace w1 hw1, by decide⟩, identList_no_lbrace n hnid⟩, hdp⟩,
      wsOK_no_lbrace w2 hw2⟩, by decide⟩
  have hform : chunkStr (.ph n d w1 w2) ++ rest
      = '{' :: '{' :: ((w1 ++ ['H', 'M', '_'] ++ n
        ++ dfltPart d ++ w2 ++ ['}', '}']) ++ rest) := by
    rw [hX]
    simp
  have hflen : (w1 ++ ['H', 'M', '_'] ++ n
      ++ dfltPart d ++ w2 ++ ['}', '}']).length
      + rest.length + 2 ≤ f := by
    rw [hform] at hf
    simp only [List.length_cons, List.length_append] at hf ⊢
    omega
  simp only [List.length_append, List.length_cons, List.length_nil] at hflen
  rw [hform]
  rcases f with _ | f2
  · omega
  rw [sub1Go]
  rw [show matchVar k ('{' :: '{' :: ((w1 ++ ['H', 'M', '_'] ++ n
      ++ dfltPart d ++ w2 ++ ['}', '}']) ++ rest))
      = none by
    rw [← hform]
    exact matchVar_ph_ne k n d w1 w2 rest hkid hok hne]
  rcases f2 with _ | f3
  · omega
  rw [sub1Go]
  rcases hBe : (w1 ++ ['H', 'M', '_'] ++ n
      ++ dfltPart d ++ w2 ++ ['}', '}']) with _ | ⟨y, t⟩
  · exfalso
    have := congrArg List.length hBe
    simp only [List.length_append, List.length_cons, List.length_nil] at this
    omega
  have hyne : ¬(y = '{') := by
    rw [hBe] at hBall
    simp only [List.all_cons, Bool.and_eq_true, Bool.not_eq_true',
      decide_eq_false_iff_not] at hBall
    exact hBall.1
  rw [List.cons_append]
  rw [show matchVar k ('{' :: y :: (t ++ rest)) = none from matchVar_two_ne k y (t ++ rest) hyne]
  rw [show (y :: (t ++ rest)) = (y :: t) ++ rest by simp]
  rw [sub1Go_copy k v (y :: t) (by rw [← hBe]; exact hBall) rest f3 (by
    have := congrArg List.length hBe
    simp only [List.length_append, List.length_cons, List.length_nil] at this ⊢
    omega)]
  rw [hX, hBe]
  simp

/-- Pass 1 for one key over a decomposed text substitutes exactly the
placeholders bearing that key. -/
theorem sub1Go_chunks (k v : List Char) (hkne : ¬(k = [])) (hkid : k.all identChar = true)
    (hv : noBrace v = true) :
    ∀ cs : List Chunk, chunksOK cs = true →
      ∀ f, (textOf cs).length ≤ f →
        sub1Go k v f (textOf cs) = textOf (cs.map (substChunk k v)) := by
  intro cs
  induction cs with
  | nil =>
    intro _ f _
    simp only [textOf, List.map_nil, List.flatten_nil]
    cases f <;> rfl
  | cons c cs ih =>
    intro hok f hf
    simp only [chunksOK, List.all_cons, Bool.and_eq_true] at hok
    have hok1 := hok.1
    have hok2 : chunksOK cs = true := hok.2
    have htext : textOf (c :: cs) = chunkStr c ++ textOf cs := by
      simp [textOf]
    rcases c with s | ⟨n, d, w1, w2⟩
    · have hsall : (s.all fun ch => !(ch = '{')) = true := by
        simp only [chunkOK, noBrace, List.all_eq_true, Bool.and_eq_true] at hok1
        simp only [List.all_eq_true]
        intro x hx
        exact (hok1 x hx).1
      rw [htext] at hf ⊢
      rw [show chunkStr (Chunk.lit s) = s from rfl] at hf ⊢
      simp only [List.length_append] at hf
      rw [sub1Go_copy k v s hsall (textOf cs) f (by omega)]
      rw [ih hok2 (textOf cs).length (le_refl _)]
      simp [textOf, substChunk, chunkStr]
    · by_cases hnk : n = k
      · subst hnk
        rw [htext] at hf ⊢
        have hX : chunkStr (.ph n d w1 w2)
            = '{' :: '{' :: (w1 ++ ['H', 'M', '_'] ++ n
              ++ dfltPart d ++ w2 ++ ['}', '}']) := rfl
        have hform : chunkStr (.ph n d w1 w2) ++ textOf cs
            = '{' :: '{' :: ((w1 ++ ['H', 'M', '_'] ++ n
              ++ dfltPart d ++ w2 ++ ['}', '}'])
                ++ textOf cs) := by
          rw [hX]
          simp
        have hflen : (textOf cs).length + 2 ≤ f := by
          rw [hform] at hf
          simp only [List.length_cons, List.length_append] at hf
          omega
        rw [hform]
        rcases f with _ | f2
        · omega
        rw [sub1Go]
        rw [show matchVar n ('{' :: '{' :: ((w1 ++ ['H', 'M', '_'] ++ n
            ++ dfltPart d ++ w2 ++ ['}', '}'])
              ++ textOf cs)) = some (textOf cs) by
          rw [← hform]
          exact matchVar_ph_self n d w1 w2 (textOf cs) hok1]
        dsimp only
        rw [sub1Go_congr n v (textOf cs).length f2 (textOf cs).length (textOf cs)
          (le_refl _) (by omega) (le_refl _)]
        rw [ih hok2 (textOf cs).length (le_refl _)]
        simp [textOf, substChunk, chunkStr]
      · rw [htext] at hf ⊢
        rw [sub1Go_ph_skip k v n d w1 w2 hkid hok1 hnk (textOf cs) f hf]
        rw [ih hok2 (textOf cs).length (le_refl _)]
        simp only [List.map_cons, substChunk]
        have h2 : (n = k) = False := by
          simp only [eq_iff_iff, iff_false]
          exact hnk
        simp [textOf, chunkStr, h2]

theorem noBrace_no_lbrace (s : List Char) (h : noBrace s = true) :
    (s.all fun c => !(c = '{')) = true := by
  simp only [noBrace, List.all_eq_true, Bool.and_eq_true] at h
  simp only [List.all_eq_true]
  exact fun x hx => (h x hx).1

theorem chunksOK_map_subst (k v : List Char) (hv : noBrace v = true) :
    ∀ cs : List Chunk, chunksOK cs = true → chunksOK (cs.map (substChunk k v)) = true := by
  intro cs
  induction cs with
  | nil => intro _; rfl
  | cons c cs ih =>
    intro hcs
    simp only [chunksOK, List.map_cons, List.all_cons, Bool.and_eq_true] at hcs ⊢
    refine ⟨?_, ih hcs.2⟩
    rcases c with s | ⟨n, d, w1, w2⟩
    · exact hcs.1
    · by_cases hnk : n = k
      · simp [substChunk, hnk, chunkOK, hv]
      · simpa [substChunk, hnk] using hcs.1

theorem repsOK_head_parts (p : List Char × List Char) (reps : List (List Char × List Char))
    (h : repsOK (p :: reps) = true) :
    ¬(p.1 = []) ∧ p.1.all identChar = true ∧ noBrace p.2 = true ∧ repsOK reps = true := by
  simp only [repsOK, List.all_cons, Bool.and_eq_true] at h
  obtain ⟨⟨⟨h1, h2⟩, h3⟩, h4⟩ := h
  refine ⟨?_, h2, ?_, h4⟩
  · intro he
    rw [he] at h1
    simp at h1
  · simp only [noBrace, List.all_eq_true, Bool.and_eq_true] at h3 ⊢
    exact fun x hx => ⟨(h3 x hx).1.1, (h3 x hx).1.2⟩

/-- Pass 1 folded over the whole replacement dict acts on a decomposed text
chunk by chunk. -/
theorem applyAll_chunks :
    ∀ (reps : List (List Char × List Char)) (cs : List Chunk), chunksOK cs = true →
      repsOK reps = true →
      applyAll reps (textOf cs)
        = textOf (reps.foldl (fun cs2 p => cs2.map (substChunk p.1 p.2)) cs) := by
  intro reps
  induction reps with
  | nil => intro cs _ _; rfl
  | cons p reps ih =>
    intro cs hcs hreps
    obtain ⟨hp1, hp2, hpv, hrest⟩ := repsOK_head_parts p reps hreps
    simp only [applyAll, List.foldl_cons]
    rw [show sub1 p.1 p.2 (textOf cs) = textOf (cs.map (substChunk p.1 p.2)) from
      sub1Go_chunks p.1 p.2 hp1 hp2 hpv cs hcs (textOf cs).length (le_refl _)]
    exact ih (cs.map (substChunk p.1 p.2)) (chunksOK_map_subst p.1 p.2 hpv cs hcs) hrest

theorem foldl_map_chunks (reps : List (List Char × List Char)) :
    ∀ cs : List Chunk,
      reps.foldl (fun cs2 p => cs2.map (substChunk p.1 p.2)) cs
        = cs.map fun c => reps.foldl (fun c2 p => substChunk p.1 p.2 c2) c := by
  induction reps with
  | nil => intro cs; simp
  | cons p reps ih =>
    intro cs
    simp only [List.foldl_cons]
    rw [ih (cs.map (substChunk p.1 p.2)), List.map_map]
    rfl

theorem lit_foldl_subst (reps : List (List Char × List Char)) (s : List Char) :
    reps.foldl (fun c2 p => substChunk p.1 p.2 c2) (Chunk.lit s) = Chunk.lit s := by
  induction reps with
  | nil => rfl
  | cons p reps ih => simpa [substChunk] using ih

/-- A keyed placeholder ends as a literal carrying a brace-free value. -/
theorem chunk_resolved :
    ∀ (reps : List (List Char × List Char)) (n : List Char) (d : Option (List Char))
      (w1 w2 : List Char), repsOK reps = true → (reps.map Prod.fst).contains n = true →
      ∃ v, reps.foldl (fun c2 p => substChunk p.1 p.2 c2) (Chunk.ph n d w1 w2) = Chunk.lit v
        ∧ noBrace v = true := by
  intro reps
  induction reps with
  | nil =>
    intro n d w1 w2 _ hc
    simp [List.contains] at hc
  | cons p reps ih =>
    intro n d w1 w2 hreps hc
    obtain ⟨hp1, hp2, hpv, hrest⟩ := repsOK_head_parts p reps hreps
    simp only [List.foldl_cons]
    by_cases hnp : n = p.1
    · rw [show substChunk p.1 p.2 (Chunk.ph n d w1 w2) = Chunk.lit p.2 by
        simp [substChunk, hnp]]
      exact ⟨p.2, lit_foldl_subst reps p.2, hpv⟩
    · rw [show substChunk p.1 p.2 (Chunk.ph n d w1 w2) = Chunk.ph n d w1 w2 by
        simp [substChunk, hnp]]
      refine ih n d w1 w2 hrest ?_
      simp only [List.map_cons, List.contains_cons, Bool.or_eq_true, beq_iff_eq] at hc
      rcases hc with hc | hc
      · exact absurd hc hnp
      · exact hc

/-- After pass 1 with every placeholder keyed, the text is brace-free. -/
theorem final_noBrace :
    ∀ (cs : List Chunk) (reps : List (List Char × List Char)), chunksOK cs = true →
      repsOK reps = true → allKeyed cs reps = true →
      noBrace (textOf (reps.foldl (fun cs2 p => cs2.map (substChunk p.1 p.2)) cs)) = true := by
  intro cs
  induction cs with
  | nil =>
    intro reps _ _ _
    rw [foldl_map_chunks]
    rfl
  | cons c cs ih =>
    intro reps hcs hreps hkeyed
    simp only [chunksOK, allKeyed, List.all_cons, Bool.and_eq_true] at hcs hkeyed
    rw [foldl_map_chunks]
    simp only [List.map_cons, textOf, List.flatten_cons, noBrace, List.all_append]
    have htail := ih reps hcs.2 hreps hkeyed.2
    rw [foldl_map_chunks] at htail
    simp only [textOf, noBrace] at htail
    rw [htail, Bool.and_true]
    rcases c with s | ⟨n, d, w1, w2⟩
    · rw [lit_foldl_subst]
      exact hcs.1
    · obtain ⟨v, hv1, hv2⟩ := chunk_resolved reps n d w1 w2 hreps (by
        simpa [phKeyed] using hkeyed.1)
      rw [hv1]
      exact hv2

theorem sub2_id_of_noBrace (s : List Char) (h : noBrace s = true) : sub2 s = s :=
  sub2Go_id s.length s (noBrace_no_lbrace s h)

theorem applyAll_id_of_noBrace (reps : List (List Char × List Char)) (s : List Char)
    (h : noBrace s = true) : applyAll reps s = s := by
  induction reps with
  | nil => rfl
  | cons p reps ih =>
    simp only [applyAll, List.foldl_cons] at ih ⊢
    rw [show sub1 p.1 p.2 s = s from sub1Go_id p.1 p.2 s.length s (noBrace_no_lbrace s h)]
    exact ih

theorem renderL_id_of_noBrace (reps : List (List Char × List Char)) (s : List Char)
    (h : noBrace s = true) : renderL s reps = s := by
  rw [renderL, show (reps.foldl (fun acc p => sub1 p.1 p.2 acc) s)
    = applyAll reps s from rfl]
  rw [applyAll_id_of_noBrace reps s h]
  exact sub2_id_of_noBrace s h

/-- C5 (amended): rendering is idempotent on texts that decompose into
brace-free literal segments and well-formed placeholders whose names all
have matching keys, provided the replacement values are themselves free of
brace and backslash characters (identifier keys).  Without the value
restriction the property fails, as the counterexample shows. -/
theorem renderL_idempotent (cs : List Chunk) (reps : List (List Char × List Char))
    (hcs : chunksOK cs = true) (hreps : repsOK reps = true)
    (hkeyed : allKeyed cs reps = true) :
    renderL (renderL (textOf cs) reps) reps = renderL (textOf cs) reps := by
  have h2 := final_noBrace cs reps hcs hreps hkeyed
  have h3 : renderL (textOf cs) reps
      = textOf (reps.foldl (fun cs2 p => cs2.map (substChunk p.1 p.2)) cs) := by
    rw [renderL, show (reps.foldl (fun acc p => sub1 p.1 p.2 acc) (textOf cs))
      = applyAll reps (textOf cs) from rfl]
    rw [applyAll_chunks reps cs hcs hreps]
    exact sub2_id_of_noBrace _ h2
  rw [h3]
  exact renderL_id_of_noBrace reps _ h2

/-- Witness for the amended C5 at a concrete decomposition and mapping. -/
theorem renderL_idempotent_witness :
    chunksOK [Chunk.lit "a, ".data, Chunk.ph "FOO".data (some "9".data) [' '] [' ']] = true ∧
    repsOK [("FOO".data, "3".data)] = true ∧
    allKeyed [Chunk.lit "a, ".data, Chunk.ph "FOO".data (some "9".data) [' '] [' ']]
      [("FOO".data, "3".data)] = true ∧
    renderL
        (renderL (textOf [Chunk.lit "a, ".data, Chunk.ph "FOO".data (some "9".data) [' '] [' ']])
          [("FOO".data, "3".data)])
        [("FOO".data, "3".data)]
      = renderL (textOf [Chunk.lit "a, ".data, Chunk.ph "FOO".data (some "9".data) [' '] [' ']])
        [("FOO".data, "3".data)] :=
  ⟨by decide, by decide, by decide,
    renderL_idempotent _ _ (by decide) (by decide) (by decide)⟩

/-! ## Run model (process_config, clone_or_pull, run, archive_stale_data)

External operations (git, docker compose, docker) are oracles: their
outcomes are fields of the per-app record, and the model emits an explicit
trace of the operations issued.  Exceptions are Except values; the string
carries the message.
-/

abbrev Err := String

inductive Event where
  | appBegin (id : String)
  | attempt
  | gitClone
  | gitFetch
  | gitReset
  | gitRevParse
  | gitSetUrl
  | sleep (n : Nat)
  | composePs
  | stopCall
  | composeDown
  | composePull
  | composeUp
  | dockerPsFilter (flt : String)
  | dockerStop (cid : String)
  | rmRepoDir (name : String)
  | archiveData (name target : String)
  | rmCacheDir (name : String)
  deriving DecidableEq

/-- MAX_GIT_NETWORK_ATTEMPTS (cli.py line 35). -/
def MAX_GIT_NETWORK_ATTEMPTS : Nat := 3

/-- RETRY_WAIT_SECONDS (cli.py line 36). -/
def RETRY_WAIT_SECONDS : Nat := 10

/-- One configured application as the run sees it: its id, configuration
flags, change-detector inputs, loaded cache entry, and the oracle answers
of the external operations (per-attempt synchronization outcomes, the
running query, and the stop / pull / up command outcomes). -/
structure AppRun where
  id : String
  enabled : Bool
  isRepo : Bool
  attempts : Nat → Except Err Bool
  params : AppParams
  cacheEntry : List (String × String)
  repoDirExists : Bool
  isRunning : Bool
  stopOutcome : Except Err Unit
  pullOutcome : Except Err Unit
  upOutcome : Except Err Unit

/-- The git operations of one successful synchronization attempt: pull
(rev-parse, set-url, fetch, reset, rev-parse; cli.py lines 503-561) when a
repository exists, clone (lines 481-501) otherwise. -/
def syncEvents (isRepo : Bool) : List Event :=
  if isRepo then [.gitRevParse, .gitSetUrl, .gitFetch, .gitReset, .gitRevParse]
  else [.gitClone]

/-- App.clone_or_pull (cli.py lines 563-582): up to MAX_GIT_NETWORK_ATTEMPTS
tries; a failing attempt reports, sleeps RETRY_WAIT_SECONDS and retries;
when the loop ends the last exception is re-raised.  A failed attempt's
partial git traffic is abstracted into its attempt event; the countdown,
attempt index and last exception are threaded explicitly. -/
def cloneOrPullGo (isRepo : Bool) (att : Nat → Except Err Bool) :
    Nat → Nat → Err → List Event × Except Err Bool
  | 0, _, last => ([], .error last)
  | remaining + 1, i, _ =>
    match att i with
    | .ok u => (.attempt :: syncEvents isRepo, .ok u)
    | .error e =>
      let r := cloneOrPullGo isRepo att remaining (i + 1) e
      (.attempt :: .sleep RETRY_WAIT_SECONDS :: r.1, r.2)

def cloneOrPull (isRepo : Bool) (att : Nat → Except Err Bool) :
    List Event × Except Err Bool :=
  cloneOrPullGo isRepo att MAX_GIT_NETWORK_ATTEMPTS 0 "unbound last_exception"

/-- App.stop (cli.py lines 463-479): query the running services; a no-op
when nothing runs, otherwise compose down (whose failure raises). -/
def stopEvents (a : AppRun) : List Event × Except Err Unit :=
  if a.isRunning then
    match a.stopOutcome with
    | .error e => ([.stopCall, .composePs, .composeDown], .error e)
    | .ok _ => ([.stopCall, .composePs, .composeDown], .ok ())
  else ([.stopCall, .composePs], .ok ())

/-- App.start (cli.py lines 428-461): compose pull, then compose up;
either failure raises. -/
def startEvents (a : AppRun) : List Event × Except Err Unit :=
  match a.pullOutcome with
  | .error e => ([.composePull], .error e)
  | .ok _ =>
    match a.upOutcome with
    | .error e => ([.composePull, .composeUp], .error e)
    | .ok _ => ([.composePull, .composeUp], .ok ())

/-- The try-block body of process_config for one application (cli.py lines
631-661): synchronize when enabled (a disabled app is not pulled and
counts as not updated), run the change detector, stop when the repository
directory exists and (updated or changed or force-restart or disabled),
then start (pull-then-up) when enabled and (just stopped or not running;
the running query is issued only when no stop was issued).  Returns the
trace and either the updated cache entry or the first raised error. -/
def processAppBody (force : Bool) (a : AppRun) :
    List Event × Except Err (List (String × String)) :=
  let sync := if a.enabled then cloneOrPull a.isRepo a.attempts else ([], Except.ok false)
  match sync.2 with
  | .error e => (sync.1, .error e)
  | .ok updated =>
    let det := checkParameterChanges a.params a.cacheEntry
    let mustStop := a.repoDirExists && (updated || det.1 || force || !a.enabled)
    let stop := if mustStop then stopEvents a else ([], .ok ())
    match stop.2 with
    | .error e => (sync.1 ++ stop.1, .error e)
    | .ok _ =>
      let psq : List Event := if a.enabled && !mustStop then [.composePs] else []
      if a.enabled && (mustStop || !a.isRunning) then
        let st := startEvents a
        match st.2 with
        | .error e => (sync.1 ++ stop.1 ++ psq ++ st.1, .error e)
        | .ok _ => (sync.1 ++ stop.1 ++ psq ++ st.1, .ok det.2)
      else (sync.1 ++ stop.1 ++ psq, .ok det.2)

/-- One iteration of the loop in process_config, including the leading
per-app echo (cli.py line 630). -/
def processApp (force : Bool) (a : AppRun) :
    List Event × Except Err (List (String × String)) :=
  let r := processAppBody force a
  (.appBegin a.id :: r.1, r.2)

/-- A value of the persisted cache document: the schema version number or
one application's entry. -/
inductive CacheVal where
  | num (n : Nat)
  | entry (e : List (String × String))
  deriving DecidableEq

/-- The per-application loop of process_config (cli.py lines 626-665): on
success the app's mutated cache entry is stored under its id; a caught
exception records a failure and leaves the cache dict untouched. -/
def processApps (force : Bool) :
    List AppRun → List (String × CacheVal) → List Event × List (String × CacheVal) × List Bool
  | [], cache => ([], cache, [])
  | a :: rest, cache =>
    let r := processApp force a
    let step : List (String × CacheVal) × Bool :=
      match r.2 with
      | .ok e2 => (dictInsert cache a.id (.entry e2), true)
      | .error _ => (cache, false)
    let next := processApps force rest step.1
    (r.1 ++ next.1, next.2.1, step.2 :: next.2.2)

/-- process_config (cli.py lines 619-671): the cache starts as the dict
holding version 1; at the end of the loop the cache document is written;
returns (trace, written cache document, per-app success flags). -/
def processConfig (force : Bool) (apps : List AppRun) :
    List Event × List (String × CacheVal) × List Bool :=
  processApps force apps [("version", CacheVal.num 1)]

/-- The all-successes return value of process_config. -/
def processConfigResult (force : Bool) (apps : List AppRun) : Bool :=
  ((processConfig force apps).2.2).all fun b => b

/-- The run command's exit status (cli.py line 771). -/
def runExitCode (force : Bool) (apps : List AppRun) : Nat :=
  if processConfigResult force apps then 0 else 1

/-! ## Stale-state garbage collection -/

structure Container where
  cid : String
  name : String
  deriving DecidableEq

def listPrefixB : List Char → List Char → Bool
  | [], _ => true
  | _ :: _, [] => false
  | a :: as, b :: bs => a = b && listPrefixB as bs

/-- p is a prefix of s (executable, over code points). -/
def strPrefixB (p s : String) : Bool := listPrefixB p.data s.data

/-- Modelled from the spec (section 6, external interfaces): the
container-runtime query is addressable by name prefix; `docker ps -qf
name=FLT` returns the ids of the running containers whose name starts
with FLT. -/
def dockerPs (flt : String) (running : List Container) : List String :=
  (running.filter fun c => strPrefixB flt c.name).map Container.cid

/-- _kill_orphan_containers (cli.py lines 132-160): query with the app id
followed by an underscore, then stop each returned container (success
path; a failed stop raises and aborts the cleanup). -/
def killOrphanContainers (repoId : String) (running : List Container) : List Event :=
  .dockerPsFilter (repoId ++ "_") :: (dockerPs (repoId ++ "_") running).map Event.dockerStop

/-- archive_stale_data (cli.py lines 674-700); the on-disk directory
listings and the timestamp string are inputs.  Python set difference is
modelled as list filtering (no claim depends on set iteration order). -/
def archiveStaleData (appIds repos dataDirs cacheDirs : List String)
    (running : List Container) (ts : String) : List Event :=
  ((repos.filter fun r => !appIds.contains r).map
      fun r => killOrphanContainers r running ++ [Event.rmRepoDir r]).flatten
    ++ ((dataDirs.filter fun d2 => !appIds.contains d2).map
      fun d2 => [Event.archiveData d2 (d2 ++ "-" ++ ts)]).flatten
    ++ ((cacheDirs.filter fun c => !appIds.contains c).map
      fun c => [Event.rmCacheDir c]).flatten

/-- xs occurs contiguously inside ys. -/
def listWithin (xs ys : List Event) : Prop := ∃ p q, ys = p ++ (xs ++ q)

theorem listWithin_head_mem (x y : Event) (l : List Event)
    (h : listWithin [x, y] l) : x ∈ l := by
  obtain ⟨p, q, rfl⟩ := h
  simp

/-- Events a clone_or_pull call can emit. -/
def isGitEvent : Event → Bool
  | .attempt => true
  | .sleep _ => true
  | .gitClone => true
  | .gitFetch => true
  | .gitReset => true
  | .gitRevParse => true
  | .gitSetUrl => true
  | _ => false

theorem cloneOrPullGo_git (isRepo : Bool) (att : Nat → Except Err Bool) :
    ∀ rem i last e, e ∈ (cloneOrPullGo isRepo att rem i last).1 → isGitEvent e = true := by
  intro rem
  induction rem with
  | zero =>
    intro i last e he
    simp [cloneOrPullGo] at he
  | succ rem ih =>
    intro i last e he
    rw [cloneOrPullGo] at he
    cases ha : att i with
    | ok u =>
      rw [ha] at he
      simp only [List.mem_cons] at he
      rcases he with rfl | he
      · rfl
      · rcases hr : isRepo <;> rw [hr] at he <;> simp [syncEvents] at he <;>
          rcases he with rfl | rfl | rfl | rfl | rfl <;> rfl
    | error e2 =>
      rw [ha] at he
      simp only [List.mem_cons] at he
      rcases he with rfl | rfl | he
      · rfl
      · rfl
      · exact ih (i + 1) e2 e he

theorem cloneOrPull_git (isRepo : Bool) (att : Nat → Except Err Bool) (e : Event)
    (he : e ∈ (cloneOrPull isRepo att).1) : isGitEvent e = true :=
  cloneOrPullGo_git isRepo att MAX_GIT_NETWORK_ATTEMPTS 0 _ e he

theorem lookupA_dictInsert_self {α : Type} (d : List (String × α)) (k : String) (v : α) :
    lookupA (dictInsert d k v) k = some v := by
  induction d with
  | nil => simp [dictInsert, lookupA]
  | cons p t ih =>
    obtain ⟨k1, v1⟩ := p
    by_cases hk : k1 = k <;> simp [dictInsert, lookupA, hk, ih]

theorem lookupA_dictInsert_ne {α : Type} (d : List (String × α)) (k x : String) (v : α)
    (h : ¬(k = x)) : lookupA (dictInsert d k v) x = lookupA d x := by
  induction d with
  | nil => simp [dictInsert, lookupA, h]
  | cons p t ih =>
    obtain ⟨k1, v1⟩ := p
    by_cases hk : k1 = k
    · subst hk
      simp [dictInsert, lookupA, h]
    · simp [dictInsert, lookupA, hk, ih]

/-- The cache accumulator is untouched at ids of applications not in the list. -/
theorem processApps_lookup_not_mem (force : Bool) :
    ∀ (apps : List AppRun) (cache : List (String × CacheVal)) (x : String),
      ¬(x ∈ apps.map AppRun.id) →
      lookupA (processApps force apps cache).2.1 x = lookupA cache x := by
  intro apps
  induction apps with
  | nil => intro cache x _; rfl
  | cons a rest ih =>
    intro cache x hx
    simp only [List.map_cons, List.mem_cons] at hx
    push_neg at hx
    rw [processApps]
    cases hr : (processApp force a).2 with
    | ok e2 =>
      simp only [hr]
      rw [ih _ x hx.2, lookupA_dictInsert_ne _ _ _ _ (fun he => hx.1 he.symm)]
    | error e2 =>
      simp only [hr]
      exact ih _ x hx.2

/-- A failed application's id is absent from the final cache document when
it was absent from the accumulator. -/
theorem processApps_fail_aux (force : Bool) :
    ∀ (apps : List AppRun) (cache : List (String × CacheVal)) (a : AppRun) (e : Err),
      a ∈ apps → (apps.map AppRun.id).Nodup →
      (processApp force a).2 = Except.error e → lookupA cache a.id = none →
      lookupA (processApps force apps cache).2.1 a.id = none := by
  intro apps
  induction apps with
  | nil =>
    intro cache a e ha
    simp at ha
  | cons b rest ih =>
    intro cache a e ha hnd hfail hcache
    simp only [List.map_cons, List.nodup_cons] at hnd
    rcases List.mem_cons.mp ha with rfl | ha2
    · rw [processApps, hfail]
      simp only
      rw [processApps_lookup_not_mem force rest cache a.id hnd.1]
      exact hcache
    · rw [processApps]
      have hne : ¬(b.id = a.id) := by
        intro he
        exact hnd.1 (he ▸ List.mem_map_of_mem AppRun.id ha2)
      cases hr : (processApp force b).2 with
      | ok e2 =>
        simp only
        refine ih _ a e ha2 hnd.2 hfail ?_
        rw [lookupA_dictInsert_ne _ _ _ _ hne]
        exact hcache
      | error e2 =>
        simp only
        exact ih _ a e ha2 hnd.2 hfail hcache

/-- A successful application's entry is stored under its id. -/
theorem processApps_ok_aux (force : Bool) :
    ∀ (apps : List AppRun) (cache : List (String × CacheVal)) (a : AppRun)
      (entry : List (String × String)),
      a ∈ apps → (apps.map AppRun.id).Nodup →
      (processApp force a).2 = Except.ok entry →
      lookupA (processApps force apps cache).2.1 a.id = some (CacheVal.entry entry) := by
  intro apps
  induction apps with
  | nil =>
    intro cache a entry ha
    simp at ha
  | cons b rest ih =>
    intro cache a entry ha hnd hok
    simp only [List.map_cons, List.nodup_cons] at hnd
    rcases List.mem_cons.mp ha with rfl | ha2
    · rw [processApps, hok]
      simp only
      rw [processApps_lookup_not_mem force rest _ a.id hnd.1]
      exact lookupA_dictInsert_self _ _ _
    · rw [processApps]
      cases hr : (processApp force b).2 with
      | ok e2 => exact ih _ a entry ha2 hnd.2 hok
      | error e2 => exact ih _ a entry ha2 hnd.2 hok

/-- The success flags are one per application, in order, independent of the
cache accumulator. -/
theorem processApps_flags (force : Bool) :
    ∀ (apps : List AppRun) (cache : List (String × CacheVal)),
      (processApps force apps cache).2.2
        = apps.map fun a =>
            match (processApp force a).2 with
            | .ok _ => true
            | .error _ => false := by
  intro apps
  induction apps with
  | nil => intro cache; rfl
  | cons a rest ih =>
    intro cache
    rw [processApps]
    cases hr : (processApp force a).2 with
    | ok e2 => simp [hr, ih]
    | error e2 => simp [hr, ih]

/-- Every application's processing begins, whatever happened before it. -/
theorem processApps_trace_begin (force : Bool) :
    ∀ (apps : List AppRun) (cache : List (String × CacheVal)) (a : AppRun), a ∈ apps →
      Event.appBegin a.id ∈ (processApps force apps cache).1 := by
  intro apps
  induction apps with
  | nil =>
    intro cache a ha
    simp at ha
  | cons b rest ih =>
    intro cache a ha
    rw [processApps]
    simp only [List.mem_append]
    rcases List.mem_cons.mp ha with rfl | ha2
    · left
      simp [processApp]
    · right
      exact ih _ a ha2

/-- C7: clone_or_pull makes at most 3 attempts to clone or synchronize,
every sleep in its trace is the fixed 10-second backoff between attempts,
and when all three attempts fail the result is the last exception
re-raised (the trace being attempt, sleep, attempt, sleep, attempt,
sleep). -/
theorem cloneOrPull_spec (isRepo : Bool) (att : Nat → Except Err Bool) :
    ((cloneOrPull isRepo att).1.count Event.attempt ≤ 3) ∧
    (∀ n, Event.sleep n ∈ (cloneOrPull isRepo att).1 → n = 10) ∧
    (∀ e0 e1 e2, att 0 = Except.error e0 → att 1 = Except.error e1 →
      att 2 = Except.error e2 →
      (cloneOrPull isRepo att).2 = Except.error e2 ∧
      (cloneOrPull isRepo att).1
        = [Event.attempt, Event.sleep 10, Event.attempt, Event.sleep 10, Event.attempt,
            Event.sleep 10]) := by
  have key : ∀ (rem i : Nat) (last : Err),
      ((cloneOrPullGo isRepo att rem i last).1.count Event.attempt ≤ rem) ∧
      (∀ n, Event.sleep n ∈ (cloneOrPullGo isRepo att rem i last).1 → n = 10) := by
    intro rem
    induction rem with
    | zero =>
      intro i last
      refine ⟨by simp [cloneOrPullGo], ?_⟩
      intro n h
      simp [cloneOrPullGo] at h
    | succ rem ih =>
      intro i last
      rw [cloneOrPullGo]
      cases ha : att i with
      | ok u =>
        refine ⟨?_, ?_⟩
        · rcases hr : isRepo <;>
            simp [syncEvents, List.count_cons, List.count_nil]
        · intro n h
          rcases hr : isRepo <;> rw [hr] at h <;> simp [syncEvents] at h
      | error e =>
        refine ⟨?_, ?_⟩
        · have h2 := (ih (i + 1) e).1
          simp [List.count_cons]
          omega
        · intro n h
          simp only [List.mem_cons] at h
          rcases h with h | h | h
          · exact absurd h (by simp)
          · simpa [RETRY_WAIT_SECONDS] using h
          · exact (ih (i + 1) e).2 n h
  refine ⟨(key MAX_GIT_NETWORK_ATTEMPTS 0 _).1, (key MAX_GIT_NETWORK_ATTEMPTS 0 _).2, ?_⟩
  intro e0 e1 e2 h0 h1 h2
  rw [cloneOrPull, MAX_GIT_NETWORK_ATTEMPTS]
  rw [cloneOrPullGo, h0]
  simp only
  rw [cloneOrPullGo, h1]
  simp only
  rw [cloneOrPullGo, h2]
  simp [cloneOrPullGo, RETRY_WAIT_SECONDS]

def c7Att : Nat → Except Err Bool := fun _ => Except.error "network down"

/-- Witness for C7: all three attempts fail, the last error re-raised. -/
theorem cloneOrPull_spec_witness :
    (cloneOrPull true c7Att).2 = Except.error "network down" ∧
    (cloneOrPull true c7Att).1
      = [Event.attempt, Event.sleep 10, Event.attempt, Event.sleep 10, Event.attempt,
          Event.sleep 10] :=
  (cloneOrPull_spec true c7Att).2.2 "network down" "network down" "network down" rfl rfl rfl

/-- Closed form of the per-app trace on an exception-free enabled run. -/
theorem processAppBody_ok (force : Bool) (a : AppRun) (u : Bool)
    (hen : a.enabled = true)
    (hsync2 : (cloneOrPull a.isRepo a.attempts).2 = Except.ok u)
    (hstop : a.stopOutcome = Except.ok ()) (hpull : a.pullOutcome = Except.ok ())
    (hup : a.upOutcome = Except.ok ()) :
    processAppBody force a
      = ((cloneOrPull a.isRepo a.attempts).1
          ++ ((if a.repoDirExists
                && (u || (checkParameterChanges a.params a.cacheEntry).1 || force) then
                (if a.isRunning then [Event.stopCall, Event.composePs, Event.composeDown]
                  else [Event.stopCall, Event.composePs])
              else [])
            ++ ((if !(a.repoDirExists
                && (u || (checkParameterChanges a.params a.cacheEntry).1 || force)) then
                  [Event.composePs]
                else [])
              ++ (if (a.repoDirExists
                  && (u || (checkParameterChanges a.params a.cacheEntry).1 || force))
                  || !a.isRunning then
                  [Event.composePull, Event.composeUp]
                else []))),
        Except.ok (checkParameterChanges a.params a.cacheEntry).2) := by
  rcases hrd : a.repoDirExists <;> rcases hch : (checkParameterChanges a.params a.cacheEntry).1 <;>
    rcases hu : u <;> rcases hf : force <;> rcases hir : a.isRunning <;>
    simp [processAppBody, hen, hsync2, hstop, hpull, hup, stopEvents, startEvents, hrd, hch,
      hu, hf, hir]

/-- Closed form of the per-app trace of a disabled application. -/
theorem processAppBody_disabled_trace (force : Bool) (a : AppRun) (hen : a.enabled = false) :
    (processAppBody force a).1 = if a.repoDirExists then (stopEvents a).1 else [] := by
  rcases hrd : a.repoDirExists <;> rcases hir : a.isRunning <;>
    rcases hso : a.stopOutcome with _ | _ <;>
    simp [processAppBody, hen, stopEvents, hrd, hir, hso]

/-- C1: on an exception-free run of one application, the stop operation is
invoked exactly when the repository directory exists and (the repository
synchronization reported a change, or the change detector reported
parameter changes, or the force-restart flag is set, or the application is
disabled); and the pull-then-up start sequence is issued exactly when the
application is enabled and (a stop was just issued or the application is
not currently running). -/
theorem processApp_decision (force : Bool) (a : AppRun) (u : Bool)
    (hsync : (if a.enabled then (cloneOrPull a.isRepo a.attempts).2 else Except.ok false)
      = Except.ok u)
    (hstop : a.stopOutcome = Except.ok ())
    (hpull : a.pullOutcome = Except.ok ()) (hup : a.upOutcome = Except.ok ()) :
    (Event.stopCall ∈ (processApp force a).1 ↔
      (a.repoDirExists
        && (u || (checkParameterChanges a.params a.cacheEntry).1 || force || !a.enabled))
        = true) ∧
    (listWithin [Event.composePull, Event.composeUp] (processApp force a).1 ↔
      (a.enabled
        && ((a.repoDirExists
            && (u || (checkParameterChanges a.params a.cacheEntry).1 || force || !a.enabled))
          || !a.isRunning)) = true) := by
  rcases hen : a.enabled with _ | _
  · rw [hen] at hsync
    simp only [if_neg Bool.false_ne_true, Except.ok.injEq] at hsync
    subst hsync
    simp only [processApp, processAppBody_disabled_trace force a hen, hen]
    refine ⟨?_, ?_⟩
    · rcases hrd : a.repoDirExists <;> rcases hir : a.isRunning <;>
        simp [stopEvents, hstop, hrd, hir]
    · rcases hrd : a.repoDirExists <;> rcases hir : a.isRunning <;>
        simp only [stopEvents, hstop, hrd, hir, Bool.false_and, if_true, if_false,
          ite_true, ite_false] <;>
        refine iff_of_false (fun hw => ?_) (by simp) <;>
        have hm := listWithin_head_mem _ _ _ hw <;> simp at hm
  · have hsync2 : (cloneOrPull a.isRepo a.attempts).2 = Except.ok u := by
      rw [hen] at hsync
      simpa using hsync
    have hnostop : Event.stopCall ∉ (cloneOrPull a.isRepo a.attempts).1 := by
      intro hm
      have h2 := cloneOrPull_git a.isRepo a.attempts _ hm
      simp [isGitEvent] at h2
    have hnopull : Event.composePull ∉ (cloneOrPull a.isRepo a.attempts).1 := by
      intro hm
      have h2 := cloneOrPull_git a.isRepo a.attempts _ hm
      simp [isGitEvent] at h2
    simp only [processApp, processAppBody_ok force a u hen hsync2 hstop hpull hup, hen,
      Bool.not_true, Bool.or_false, Bool.true_and]
    rcases hms : (a.repoDirExists
        && (u || (checkParameterChanges a.params a.cacheEntry).1 || force)) with _ | _
    · rcases hir : a.isRunning with _ | _
      · refine ⟨?_, ?_⟩
        · simp [hnostop]
        · refine iff_of_true ?_ (by simp)
          exact ⟨Event.appBegin a.id :: ((cloneOrPull a.isRepo a.attempts).1
            ++ ([] ++ [Event.composePs])), [], by simp⟩
      · refine ⟨?_, ?_⟩
        · simp [hnostop]
        · refine iff_of_false (fun hw => ?_) (by simp)
          have hm := listWithin_head_mem _ _ _ hw
          simp [hnopull] at hm
    · rcases hir : a.isRunning with _ | _
      · refine ⟨?_, ?_⟩
        · simp
        · refine iff_of_true ?_ (by simp)
          exact ⟨Event.appBegin a.id :: ((cloneOrPull a.isRepo a.attempts).1
            ++ ([Event.stopCall, Event.composePs] ++ [])), [], by simp⟩
      · refine ⟨?_, ?_⟩
        · simp
        · refine iff_of_true ?_ (by simp)
          exact ⟨Event.appBegin a.id :: ((cloneOrPull a.isRepo a.attempts).1
            ++ ([Event.stopCall, Event.composePs, Event.composeDown] ++ [])), [], by simp⟩

/-- A fully healthy enabled application whose repository reports an update. -/
def c1App : AppRun :=
  { id := "app1", enabled := true, isRepo := true, attempts := fun _ => Except.ok true,
    params := ⟨[], [], ""⟩, cacheEntry := [], repoDirExists := true, isRunning := false,
    stopOutcome := Except.ok (), pullOutcome := Except.ok (), upOutcome := Except.ok () }

/-- Witness for C1: the updated app is stopped and then started. -/
theorem processApp_decision_witness :
    Event.stopCall ∈ (processApp false c1App).1 ∧
    listWithin [Event.composePull, Event.composeUp] (processApp false c1App).1 := by
  have h := processApp_decision false c1App true rfl rfl rfl rfl
  exact ⟨h.1.mpr (by decide), h.2.mpr (by decide)⟩

/-- A disabled application with a running container group but no
repository directory. -/
def c4App : AppRun :=
  { id := "app1", enabled := false, isRepo := false, attempts := fun _ => Except.ok false,
    params := ⟨[], [], ""⟩, cacheEntry := [], repoDirExists := false, isRunning := true,
    stopOutcome := Except.ok (), pullOutcome := Except.ok (), upOutcome := Except.ok () }

/-- C4 counterexample: a disabled application with a possibly-running
container group whose repository directory is absent is NOT stopped: its
trace contains neither the stop invocation nor a compose down. -/
theorem processApp_disabled_not_stopped :
    c4App.enabled = false ∧ c4App.isRunning = true ∧
    Event.stopCall ∉ (processApp false c4App).1 ∧
    Event.composeDown ∉ (processApp false c4App).1 := by
  exact ⟨rfl, rfl, by decide, by decide⟩

/-- C4 (amended): a disabled application triggers no repository
synchronization at all — no git clone, fetch or reset, indeed no
synchronization attempt — and, provided its repository directory exists,
the stop operation is still invoked on it, with a compose down issued
whenever its container group is running. -/
theorem processApp_disabled (force : Bool) (a : AppRun) (h : a.enabled = false) :
    Event.gitClone ∉ (processApp force a).1 ∧
    Event.gitFetch ∉ (processApp force a).1 ∧
    Event.gitReset ∉ (processApp force a).1 ∧
    Event.attempt ∉ (processApp force a).1 ∧
    (a.repoDirExists = true → Event.stopCall ∈ (processApp force a).1 ∧
      (a.isRunning = true → Event.composeDown ∈ (processApp force a).1)) := by
  simp only [processApp, processAppBody_disabled_trace force a h]
  rcases hrd : a.repoDirExists <;> rcases hir : a.isRunning <;>
    rcases hso : a.stopOutcome with _ | _ <;>
    simp [stopEvents, hir, hso]

/-- A disabled application with a repository directory and a running group. -/
def c4bApp : AppRun :=
  { id := "app2", enabled := false, isRepo := true, attempts := fun _ => Except.ok false,
    params := ⟨[], [], ""⟩, cacheEntry := [], repoDirExists := true, isRunning := true,
    stopOutcome := Except.ok (), pullOutcome := Except.ok (), upOutcome := Except.ok () }

/-- Witness for the amended C4. -/
theorem processApp_disabled_witness :
    Event.stopCall ∈ (processApp false c4bApp).1 ∧
    Event.composeDown ∈ (processApp false c4bApp).1 := by
  have h := (processApp_disabled false c4bApp rfl).2.2.2.2 rfl
  exact ⟨h.1, h.2 rfl⟩

/-- An enabled, updated application whose stop command fails after the
change detector already ran. -/
def c2App : AppRun :=
  { id := "app1", enabled := true, isRepo := true, attempts := fun _ => Except.ok true,
    params := ⟨[], [], ""⟩, cacheEntry := [("environment_hash", "stale")],
    repoDirExists := true, isRunning := true,
    stopOutcome := Except.error "could not stop the container",
    pullOutcome := Except.ok (), upOutcome := Except.ok () }

/-- C2 counterexample: the application fails in the docker stop layer after
the change detector already computed its hashes, yet the cache document
written at the end of the run holds no entry for it at all — only the
version key — refuting the claim that its fingerprint cache entry is still
updated. -/
theorem processConfig_failed_app_entry_dropped :
    (processApp false c2App).2 = Except.error "could not stop the container" ∧
    lookupA (processConfig false [c2App]).2.1 "app1" = none ∧
    (processConfig false [c2App]).2.1 = [("version", CacheVal.num 1)] := by
  exact ⟨rfl, rfl, rfl⟩

/-- C2 (amended): when processing an application raises a caught exception,
its fingerprint cache entry is NOT updated: the cache file written at the
end of the run contains no entry under its id at all (the previous entry
is dropped along with the fresh hashes), because an entry is stored only
after a fully successful lifecycle sequence. -/
theorem processConfig_failed_app_no_entry (force : Bool) (apps : List AppRun) (a : AppRun)
    (e : Err) (ha : a ∈ apps) (hnd : (apps.map AppRun.id).Nodup)
    (hver : ¬(a.id = "version"))
    (hfail : (processApp force a).2 = Except.error e) :
    lookupA (processConfig force apps).2.1 a.id = none := by
  refine processApps_fail_aux force apps _ a e ha hnd hfail ?_
  have h2 : ("version" = a.id) = False := by
    simp only [eq_iff_iff, iff_false]
    intro he
    exact hver he.symm
  simp [lookupA, h2]

/-- Witness for the amended C2 at the concrete failing application. -/
theorem processConfig_failed_app_no_entry_witness :
    lookupA (processConfig false [c2App]).2.1 c2App.id = none :=
  processConfig_failed_app_no_entry false [c2App] c2App "could not stop the container"
    (by simp) (by simp) (by decide) rfl

/-- An application whose id is the schema-version key itself. -/
def versionApp : AppRun :=
  { id := "version", enabled := false, isRepo := false, attempts := fun _ => Except.ok false,
    params := ⟨[], [], ""⟩, cacheEntry := [], repoDirExists := false, isRunning := false,
    stopOutcome := Except.ok (), pullOutcome := Except.ok (), upOutcome := Except.ok () }

/-- C10 counterexample: an application whose id is the literal string
"version" completes its lifecycle successfully, and its entry overwrites
the schema-version key, so the written document no longer maps "version"
to 1. -/
theorem processConfig_version_clash :
    (processApp false versionApp).2
      = Except.ok (checkParameterChanges ⟨[], [], ""⟩ []).2 ∧
    ¬ lookupA (processConfig false [versionApp]).2.1 "version" = some (CacheVal.num 1) := by
  refine ⟨rfl, ?_⟩
  intro h
  rw [show lookupA (processConfig false [versionApp]).2.1 "version"
      = some (CacheVal.entry (checkParameterChanges ⟨[], [], ""⟩ []).2) from rfl] at h
  simp at h

/-- C10 (amended): provided no application is named "version" and the ids
are distinct, the cache document written at the end of a run maps
"version" to 1, maps the id of every application that completed its
lifecycle without an exception to the entry the change detector computed,
and contains nothing else: ids of failed applications and ids absent from
the configuration do not appear. -/
theorem processConfig_cache_document (force : Bool) (apps : List AppRun)
    (hnd : (apps.map AppRun.id).Nodup) (hver : ¬("version" ∈ apps.map AppRun.id)) :
    lookupA (processConfig force apps).2.1 "version" = some (CacheVal.num 1) ∧
    (∀ a ∈ apps, ∀ entry, (processApp force a).2 = Except.ok entry →
      lookupA (processConfig force apps).2.1 a.id = some (CacheVal.entry entry)) ∧
    (∀ a ∈ apps, ∀ e, (processApp force a).2 = Except.error e →
      lookupA (processConfig force apps).2.1 a.id = none) ∧
    (∀ x, ¬(x = "version") → ¬(x ∈ apps.map AppRun.id) →
      lookupA (processConfig force apps).2.1 x = none) := by
  refine ⟨?_, ?_, ?_, ?_⟩
  · rw [processConfig, processApps_lookup_not_mem force apps _ "version" hver]
    simp [lookupA]
  · intro a ha entry hok
    exact processApps_ok_aux force apps _ a entry ha hnd hok
  · intro a ha e hfail
    refine processApps_fail_aux force apps _ a e ha hnd hfail ?_
    have hvne : ¬(a.id = "version") := by
      intro he
      exact hver (he ▸ List.mem_map_of_mem AppRun.id ha)
    have h2 : ("version" = a.id) = False := by
      simp only [eq_iff_iff, iff_false]
      intro he
      exact hvne he.symm
    simp [lookupA, h2]
  · intro x hxv hxm
    rw [processConfig, processApps_lookup_not_mem force apps _ x hxm]
    have h2 : ("version" = x) = False := by
      simp only [eq_iff_iff, iff_false]
      intro he
      exact hxv he.symm
    simp [lookupA, h2]

/-- Witness for the amended C10. -/
theorem processConfig_cache_document_witness :
    lookupA (processConfig false [c4App]).2.1 "version" = some (CacheVal.num 1) :=
  (processConfig_cache_document false [c4App] (by simp) (by decide)).1

/-- C8: an exception raised while processing one application never aborts
the loop — processing of every configured application begins (its id is
echoed) and every application contributes a success flag — and the run's
exit status is 0 exactly when every application completed without an
exception (non-zero otherwise). -/
theorem processConfig_isolation (force : Bool) (apps : List AppRun) :
    (∀ a ∈ apps, Event.appBegin a.id ∈ (processConfig force apps).1) ∧
    (processConfig force apps).2.2.length = apps.length ∧
    (runExitCode force apps = 0 ↔
      ∀ a ∈ apps, ∃ entry, (processApp force a).2 = Except.ok entry) := by
  refine ⟨?_, ?_, ?_⟩
  · intro a ha
    exact processApps_trace_begin force apps _ a ha
  · rw [processConfig, processApps_flags]
    simp
  · rw [runExitCode]
    have hres : processConfigResult force apps = true ↔
        ∀ a ∈ apps, ∃ entry, (processApp force a).2 = Except.ok entry := by
      rw [processConfigResult, processConfig, processApps_flags]
      simp only [List.all_eq_true, List.mem_map]
      constructor
      · intro h a ha
        have h2 := h _ ⟨a, ha, rfl⟩
        revert h2
        cases hr : (processApp force a).2 with
        | ok e2 => intro _; exact ⟨e2, rfl⟩
        | error e2 => intro h3; simp at h3
      · rintro h b ⟨a, ha, rfl⟩
        obtain ⟨entry, he⟩ := h a ha
        rw [he]
    constructor
    · intro h
      refine hres.mp ?_
      by_contra hfalse
      rw [Bool.not_eq_true] at hfalse
      rw [if_neg] at h
      · exact absurd h (by decide)
      · rw [hfalse]
        exact Bool.false_ne_true
    · intro h
      rw [if_pos (hres.mpr h)]

/-- Witness for C8: a run over one failing application reaches it and
exits non-zero. -/
theorem processConfig_isolation_witness :
    Event.appBegin c2App.id ∈ (processConfig false [c2App]).1 ∧
    runExitCode false [c2App] = 1 :=
  ⟨(processConfig_isolation false [c2App]).1 c2App (by simp), by rfl⟩

theorem within_flatten_append (bs : List (List Event)) (tail : List Event) (b : List Event)
    (hb : b ∈ bs) : listWithin b (bs.flatten ++ tail) := by
  induction bs with
  | nil => simp at hb
  | cons hd t ih =>
    rcases List.mem_cons.mp hb with rfl | hb2
    · exact ⟨[], t.flatten ++ tail, by simp⟩
    · obtain ⟨p, q, heq⟩ := ih hb2
      refine ⟨hd ++ p, q, ?_⟩
      simp only [List.flatten_cons, List.append_assoc]
      rw [← heq]

/-- C9 counterexample: with the app id myapp stale on disk, a running
container named myappX_web_1 — whose name is prefixed by the id — is not
stopped: the cleanup only queries for names starting with the id followed
by an underscore. -/
theorem archiveStaleData_prefix_cex :
    strPrefixB "myapp" "myappX_web_1" = true ∧
    Event.dockerStop "c1" ∉
      archiveStaleData [] ["myapp"] [] [] [⟨"c1", "myappX_web_1"⟩] "ts" ∧
    archiveStaleData [] ["myapp"] [] [] [⟨"c1", "myappX_web_1"⟩] "ts"
      = [Event.dockerPsFilter "myapp_", Event.rmRepoDir "myapp"] := by
  exact ⟨by decide, by decide, by decide⟩

/-- C9 (amended): for every on-disk application id no longer present in the
configuration, the run stops every running container whose name starts
with the id followed by an underscore, then deletes the stale repository
directory (querying and stopping form one contiguous block ending in the
removal); it archives each stale data directory by renaming it to a
timestamped name rather than deleting it; and it deletes each stale cache
directory outright. -/
theorem archiveStaleData_spec (appIds repos dataDirs cacheDirs : List String)
    (running : List Container) (ts : String) :
    (∀ r ∈ repos, ¬(r ∈ appIds) →
      listWithin (killOrphanContainers r running ++ [Event.rmRepoDir r])
        (archiveStaleData appIds repos dataDirs cacheDirs running ts) ∧
      ∀ c ∈ running, strPrefixB (r ++ "_") c.name = true →
        Event.dockerStop c.cid ∈ killOrphanContainers r running) ∧
    (∀ d2 ∈ dataDirs, ¬(d2 ∈ appIds) →
      Event.archiveData d2 (d2 ++ "-" ++ ts)
        ∈ archiveStaleData appIds repos dataDirs cacheDirs running ts) ∧
    (∀ c ∈ cacheDirs, ¬(c ∈ appIds) →
      Event.rmCacheDir c ∈ archiveStaleData appIds repos dataDirs cacheDirs running ts) := by
  refine ⟨?_, ?_, ?_⟩
  · intro r hr hnr
    constructor
    · rw [archiveStaleData, List.append_assoc]
      refine within_flatten_append _ _ _ ?_
      refine List.mem_map_of_mem _ (List.mem_filter.mpr ⟨hr, ?_⟩)
      simpa using hnr
    · intro c hc hpref
      have h1 : c.cid ∈ dockerPs (r ++ "_") running := by
        simp only [dockerPs, List.mem_map]
        exact ⟨c, List.mem_filter.mpr ⟨hc, hpref⟩, rfl⟩
      simp only [killOrphanContainers, List.mem_cons]
      right
      exact List.mem_map_of_mem Event.dockerStop h1
  · intro d2 hd hnd
    have h1 : Event.archiveData d2 (d2 ++ "-" ++ ts)
        ∈ ((dataDirs.filter fun x => !appIds.contains x).map
          fun x => [Event.archiveData x (x ++ "-" ++ ts)]).flatten := by
      refine List.mem_flatten.mpr ⟨[Event.archiveData d2 (d2 ++ "-" ++ ts)], ?_, by simp⟩
      refine List.mem_map_of_mem _ (List.mem_filter.mpr ⟨hd, ?_⟩)
      simpa using hnd
    rw [archiveStaleData]
    simp only [List.mem_append]
    exact Or.inl (Or.inr h1)
  · intro c hc hnc
    have h1 : Event.rmCacheDir c
        ∈ ((cacheDirs.filter fun x => !appIds.contains x).map
          fun x => [Event.rmCacheDir x]).flatten := by
      refine List.mem_flatten.mpr ⟨[Event.rmCacheDir c], ?_, by simp⟩
      refine List.mem_map_of_mem _ (List.mem_filter.mpr ⟨hc, ?_⟩)
      simpa using hnc
    rw [archiveStaleData]
    simp only [List.mem_append]
    exact Or.inr h1

/-- Witness for the amended C9 at a one-app stale state. -/
theorem archiveStaleData_spec_witness :
    Event.dockerStop "c1" ∈ killOrphanContainers "app" [⟨"c1", "app_web_1"⟩] ∧
    Event.archiveData "app" "app-T"
      ∈ archiveStaleData [] ["app"] ["app"] ["app"] [⟨"c1", "app_web_1"⟩] "T" ∧
    Event.rmCacheDir "app"
      ∈ archiveStaleData [] ["app"] ["app"] ["app"] [⟨"c1", "app_web_1"⟩] "T" := by
  have h := archiveStaleData_spec [] ["app"] ["app"] ["app"] [⟨"c1", "app_web_1"⟩] "T"
  refine ⟨(h.1 "app" (by simp) (by simp)).2 ⟨"c1", "app_web_1"⟩ (by simp) (by decide),
    ?_, h.2.2 "app" (by simp) (by simp)⟩
  have h2 := h.2.1 "app" (by simp) (by simp)
  exact h2

end Harbormaster
